import Mathlib

/-
  Verification of the transactional ring buffer (qcstudio::containers::
  transactional_ring_buffer) against its natural-language specification.

  The C++ header is shallowly embedded: machine integers are Nat with
  explicit reduction modulo 2^32 where the 32-bit arithmetic of the source
  can wrap, arena memory is a function from byte offsets to byte values,
  and every member function of the source becomes a pure Lean function on
  an explicit state record.  The timestamp template parameter TIMESTAMP_TYPE
  is modeled by its byte width k; a fixed-width host-endian store or load of
  such a value is modeled as the little-endian byte image of the value.
-/

namespace TRB

/-- 2^32, the modulus of uint32_t arithmetic. -/
def U32 : Nat := 4294967296

/-- Wrapping uint32_t addition. -/
def u32add (a b : Nat) : Nat := (a + b) % U32

/-- Wrapping uint32_t subtraction. -/
def u32sub (a b : Nat) : Nat := (a % U32 + (U32 - b % U32)) % U32

/-- INVALID_INDEX sentinel (0xFFffFFff) marking an invalid transaction. -/
def INVALID_INDEX : Nat := 4294967295

/-- Little-endian byte image of a value, n bytes. -/
def leBytes : Nat → Nat → List Nat
  | 0, _ => []
  | n + 1, v => v % 256 :: leBytes n (v / 256)

/-- Value of a little-endian byte list. -/
def leVal : List Nat → Nat
  | [] => 0
  | b :: bs => b + 256 * leVal bs

/-! ### Wrap-aware arena memory

The arena is a function from byte offsets to byte values.  The low-level
llwrite and llread of the source copy in one chunk when the range fits
before the end of the arena and otherwise in two chunks.  A canonical
per-byte form (cwrite, cread) indexing modulo the capacity is proved
extensionally equal and used in the correctness proofs. -/

/-- One memcpy into the memory function: src placed at offsets dst, dst+1, ... -/
def memcpyF (mem : Nat → Nat) (dst : Nat) (src : List Nat) : Nat → Nat :=
  fun p => if dst ≤ p ∧ p < dst + src.length then src.getD (p - dst) 0 else mem p

/-- One contiguous memcpy out of the memory function. -/
def memread (mem : Nat → Nat) (idx n : Nat) : List Nat :=
  (List.range n).map fun j => mem (idx + j)

/-- llwrite of the source: copy src into the arena at idx, wrapping at capacity c. -/
def llwrite (c : Nat) (mem : Nat → Nat) (idx : Nat) (src : List Nat) : Nat → Nat :=
  if idx + src.length ≤ c then
    memcpyF mem idx src
  else
    let first_chunk_size := u32sub c idx
    memcpyF (memcpyF mem idx (src.take first_chunk_size)) 0 (src.drop first_chunk_size)

/-- llread of the source: read n bytes at idx, wrapping at capacity c. -/
def llread (c : Nat) (mem : Nat → Nat) (idx n : Nat) : List Nat :=
  if idx + n ≤ c then
    memread mem idx n
  else
    let first_chunk_size := u32sub c idx
    memread mem idx first_chunk_size ++ memread mem 0 (n - first_chunk_size)

/-- Canonical per-byte wrap-aware write. -/
def cwrite (c : Nat) : (Nat → Nat) → Nat → List Nat → Nat → Nat
  | mem, _, [] => mem
  | mem, idx, b :: bs => cwrite c (Function.update mem (idx % c) b) (idx + 1) bs

/-- Canonical per-byte wrap-aware read. -/
def cread (c : Nat) (mem : Nat → Nat) : Nat → Nat → List Nat
  | _, 0 => []
  | idx, n + 1 => mem (idx % c) :: cread c mem (idx + 1) n


structure transactional_ring_buffer where
  valid_ : Bool := false
  own_memory_ : Bool := true
  reading_ : Bool := false
  writing_ : Bool := false
  capacity_ : Nat := 0
  capacity_mask_ : Nat := 0
  start_ : Nat := 0
  end_ : Nat := 0
  size_ : Nat := 0
  memory_ : Option (Nat → Nat) := none

/-- The arena contents as a total function (null pointer reads as zeros;
never exercised on valid buffers). -/
def transactional_ring_buffer.mem (b : transactional_ring_buffer) : Nat → Nat :=
  b.memory_.getD fun _ => 0

/-- min_capacity of the source: sizeof of the header size field (u32, 4
bytes) plus the byte width k of the timestamp type. -/
def min_capacity (k : Nat) : Nat := 4 + k

/-- header_size of transaction_base: same formula as min_capacity. -/
def header_size (k : Nat) : Nat := 4 + k

/-- index_of member: mask the (wrapped uint32_t) index with capacity_mask_. -/
def transactional_ring_buffer.index_of (b : transactional_ring_buffer) (i : Nat) : Nat :=
  (i % U32) &&& b.capacity_mask_

/-- round_up member: bump to the next power of two by the or-shift cascade,
in uint32_t arithmetic. -/
def round_up (k : Nat) (v : Nat) : Nat :=
  let ret := max v (min_capacity k) - 1
  let ret := ret ||| ret >>> 1
  let ret := ret ||| ret >>> 2
  let ret := ret ||| ret >>> 4
  let ret := ret ||| ret >>> 8
  let ret := ret ||| ret >>> 16
  (ret + 1) % U32

/-- set_buffer member. -/
def transactional_ring_buffer.set_buffer (b : transactional_ring_buffer)
    (m : Option (Nat → Nat)) (cap : Nat) : transactional_ring_buffer :=
  { b with memory_ := m, capacity_ := cap, capacity_mask_ := u32sub cap 1,
           start_ := 0, end_ := 0, valid_ := m.isSome }

/-- reserve member.  Allocation is modeled as always succeeding and
returning fresh zeroed bytes; operator new of a zero-length array still
yields a non-null pointer, as in the C++ abstract machine. -/
def transactional_ring_buffer.reserve (k : Nat) (b : transactional_ring_buffer)
    (wanted_capacity : Nat) : transactional_ring_buffer × Bool :=
  if ¬ b.own_memory_ then (b, false)
  else
    let new_capacity :=
      round_up k (if wanted_capacity < min_capacity k then min_capacity k else wanted_capacity)
    if b.valid_ ∧ new_capacity ≤ b.capacity_ then
      let b2 := b.set_buffer b.memory_ new_capacity
      (b2, b2.valid_)
    else
      let b2 := b.set_buffer (some fun _ => 0) new_capacity
      (b2, b2.valid_)

/-- borrow member. -/
def transactional_ring_buffer.borrow (k : Nat) (b : transactional_ring_buffer)
    (m : Option (Nat → Nat)) (cap : Nat) : transactional_ring_buffer × Bool :=
  if m.isNone ∨ (b.own_memory_ ∧ b.memory_.isSome) then (b, false)
  else
    if min_capacity k ≤ cap ∧ cap &&& (u32sub cap 1) = 0 then
      ({ b.set_buffer m cap with own_memory_ := false }, true)
    else
      ({ b with valid_ := false }, false)

/-- llwrite member acting on the buffer state. -/
def transactional_ring_buffer.llwrite (b : transactional_ring_buffer)
    (idx : Nat) (src : List Nat) : transactional_ring_buffer :=
  { b with memory_ := b.memory_.map fun m => TRB.llwrite b.capacity_ m idx src }

/-- llread member acting on the buffer state. -/
def transactional_ring_buffer.llread (b : transactional_ring_buffer)
    (idx n : Nat) : List Nat :=
  TRB.llread b.capacity_ b.mem idx n

/-- size getter (the atomic load). -/
def transactional_ring_buffer.size (b : transactional_ring_buffer) : Nat := b.size_

/-- capacity getter. -/
def transactional_ring_buffer.capacity (b : transactional_ring_buffer) : Nat := b.capacity_

/-- has_data getter. -/
def transactional_ring_buffer.has_data (b : transactional_ring_buffer) : Bool :=
  decide (0 < b.size_)

/-! ### Transactions

One record models transaction_base: the header snapshot, the arena cursor
and the cached availability.  The base constructor sets index_ to
INVALID_INDEX, which the defaults mirror; header and availability are
uninitialized in the source until assigned and default to 0 here. -/

structure transaction where
  header_size : Nat := 0
  header_timestamp : Nat := 0
  index_ : Nat := INVALID_INDEX
  available_ : Nat := 0

/-- operator bool of transaction_base. -/
def transaction.valid (t : transaction) : Bool := t.index_ != INVALID_INDEX

namespace write_transaction

/-- The write_transaction constructor, i.e. the body of try_write.  The
typed llwrite of the timestamp is modeled as the byte write of its k-byte
little-endian image. -/
def mk (k : Nat) (b : transactional_ring_buffer) (timestamp : Nat) :
    transactional_ring_buffer × transaction :=
  if b.valid_ ∧ ¬ b.writing_ then
    let hs := header_size k
    let actual_available_size := u32sub b.capacity_ b.size_
    if hs ≤ actual_available_size then
      let b2 := b.llwrite (b.index_of (b.end_ + 4)) (leBytes k timestamp)
      ({ b2 with writing_ := true },
       { header_size := hs, header_timestamp := timestamp,
         index_ := b.index_of (b.end_ + hs),
         available_ := u32sub actual_available_size hs })
    else (b, { header_size := hs })
  else (b, {})

/-- write_transaction invalidate. -/
def invalidate (b : transactional_ring_buffer) (t : transaction) :
    transactional_ring_buffer × transaction :=
  ({ b with writing_ := false }, { t with index_ := INVALID_INDEX })

/-- write_transaction commit (also the destructor body). -/
def commit (b : transactional_ring_buffer) (t : transaction) :
    transactional_ring_buffer × transaction :=
  if t.valid then
    let b2 := b.llwrite b.end_ (leBytes 4 t.header_size)
    invalidate
      { b2 with end_ := b2.index_of (b2.end_ + t.header_size),
                size_ := u32add b2.size_ t.header_size } t
  else (b, t)

/-- The write_transaction move constructor: the new handle copies the four
fields of the source handle, then the source handle is invalidated (which
also clears the writing flag of the buffer).  Returns the buffer, the new
handle and the moved-from handle. -/
def move (b : transactional_ring_buffer) (other : transaction) :
    transactional_ring_buffer × transaction × transaction :=
  let t : transaction :=
    { header_size := other.header_size, header_timestamp := other.header_timestamp,
      index_ := other.index_, available_ := other.available_ }
  let r := invalidate b other
  (r.1, t, r.2)

/-- write_transaction can_write, including the one re-sync of the cached
availability against the atomic size. -/
def can_write (b : transactional_ring_buffer) (t : transaction) (size : Nat) :
    transaction × Bool :=
  if ¬ t.valid then (t, false)
  else if t.available_ < size then
    let av := u32sub (u32sub b.capacity_ b.size_) t.header_size
    ({ t with available_ := av }, decide (size ≤ av))
  else (t, true)

/-- write_transaction push_back of raw bytes. -/
def push_back (b : transactional_ring_buffer) (t : transaction) (data : List Nat) :
    transactional_ring_buffer × transaction × Bool :=
  match can_write b t data.length with
  | (t2, false) => (b, t2, false)
  | (t2, true) =>
    let b2 := b.llwrite t2.index_ data
    (b2, { t2 with index_ := b2.index_of (t2.index_ + data.length),
                   available_ := u32sub t2.available_ data.length,
                   header_size := u32add t2.header_size data.length }, true)

end write_transaction

namespace read_transaction

/-- The read_transaction constructor, i.e. the body of try_read.  The typed
llreads of the header fields are modeled as byte reads decoded little-endian. -/
def mk (k : Nat) (b : transactional_ring_buffer) :
    transactional_ring_buffer × transaction :=
  if b.valid_ then
    if ¬ b.reading_ ∧ 0 < b.size_ then
      let hsize := leVal (b.llread b.start_ 4)
      let ts := leVal (b.llread (b.index_of (b.start_ + 4)) k)
      ({ b with reading_ := true },
       { header_size := hsize, header_timestamp := ts,
         index_ := b.index_of (b.start_ + header_size k),
         available_ := u32sub hsize (header_size k) })
    else (b, {})
  else (b, {})

/-- read_transaction invalidate: marks the handle invalid and clears the
reading flag. -/
def invalidate (b : transactional_ring_buffer) (t : transaction) :
    transactional_ring_buffer × transaction :=
  ({ b with reading_ := false }, { t with index_ := INVALID_INDEX })

/-- read_transaction commit (also the destructor body); a no-op on an
invalid handle. -/
def commit (b : transactional_ring_buffer) (t : transaction) :
    transactional_ring_buffer × transaction :=
  if t.valid then
    ({ b with start_ := b.index_of (b.start_ + t.header_size),
              size_ := u32sub b.size_ t.header_size,
              reading_ := false },
     { t with index_ := INVALID_INDEX })
  else (b, t)

/-- read_transaction can_read. -/
def can_read (t : transaction) (bytes : Nat) : Bool :=
  t.valid && decide (bytes ≤ t.available_)

/-- read_transaction pop_front with a size and a callback.  The returned
chunk list holds the byte ranges handed to the callback, in order. -/
def pop_front (b : transactional_ring_buffer) (t : transaction) (size : Nat) :
    transaction × List (List Nat) × Bool :=
  if ¬ can_read t size then (t, [], false)
  else
    let sz := min t.available_ size
    let chunks :=
      if t.index_ + sz ≤ b.capacity_ then
        [memread b.mem t.index_ sz]
      else
        let first_chunk_size := u32sub b.capacity_ t.index_
        [memread b.mem t.index_ first_chunk_size,
         memread b.mem 0 (u32sub sz first_chunk_size)]
    ({ t with index_ := b.index_of (t.index_ + sz),
              available_ := u32sub t.available_ sz }, chunks, true)

/-- The typed read_transaction pop_front returning a value and a flag, for
a type of byte width tsize.  The default-initialized scalar returned on the
failure path is modeled as 0. -/
def pop_front_typed (b : transactional_ring_buffer) (t : transaction) (tsize : Nat) :
    transaction × Nat × Bool :=
  if ¬ can_read t tsize then (t, 0, false)
  else
    let v := leVal (b.llread t.index_ tsize)
    ({ t with index_ := b.index_of (t.index_ + tsize),
              available_ := u32sub t.available_ tsize }, v, true)

end read_transaction

/-- try_write member: constructs a write transaction. -/
def transactional_ring_buffer.try_write (k : Nat) (b : transactional_ring_buffer)
    (timestamp : Nat) : transactional_ring_buffer × transaction :=
  write_transaction.mk k b timestamp

/-- try_read member: constructs a read transaction. -/
def transactional_ring_buffer.try_read (k : Nat) (b : transactional_ring_buffer) :
    transactional_ring_buffer × transaction :=
  read_transaction.mk k b


/-- Serialized image of one record: 4-byte length (header included), k-byte
timestamp, payload. -/
def encode_record (k : Nat) (r : Nat × List Nat) : List Nat :=
  leBytes 4 (header_size k + r.2.length) ++ leBytes k r.1 ++ r.2

/-- Total length in bytes of one record, header included. -/
def record_size (k : Nat) (r : Nat × List Nat) : Nat := header_size k + r.2.length

/-- Total length in bytes of a sequence of records. -/
def total_size (k : Nat) (rs : List (Nat × List Nat)) : Nat :=
  (rs.map (record_size k)).sum

/-- One write transaction carrying one record: create, append the payload,
commit on scope exit.  The flag reports that creation and append succeeded. -/
def write_record (k : Nat) (b : transactional_ring_buffer) (r : Nat × List Nat) :
    transactional_ring_buffer × Bool :=
  let p1 := b.try_write k r.1
  let p2 := write_transaction.push_back p1.1 p1.2 r.2
  let p3 := write_transaction.commit p2.1 p2.2.1
  (p3.1, p1.2.valid && p2.2.2)

/-- One read transaction draining one record: create, pop all available
payload through the callback, commit on scope exit. -/
def read_record (k : Nat) (b : transactional_ring_buffer) :
    transactional_ring_buffer × Option (Nat × List Nat) :=
  let p1 := b.try_read k
  if p1.2.valid then
    let p2 := read_transaction.pop_front p1.1 p1.2 p1.2.available_
    let p3 := read_transaction.commit p1.1 p2.1
    (p3.1, some (p1.2.header_timestamp, p2.2.1.flatten))
  else (p1.1, none)

/-- Commit a sequence of write transactions in order. -/
def write_all (k : Nat) (b : transactional_ring_buffer)
    (rs : List (Nat × List Nat)) : transactional_ring_buffer :=
  rs.foldl (fun b r => (write_record k b r).1) b

/-- Perform n read transactions in order, collecting the records read. -/
def read_all (k : Nat) : transactional_ring_buffer → Nat → List (Option (Nat × List Nat))
  | _, 0 => []
  | b, n + 1 =>
    let p := read_record k b
    p.2 :: read_all k p.1 n

/-- Fold a list of push_back calls over one write transaction. -/
def push_many (b : transactional_ring_buffer) (t : transaction)
    (ds : List (List Nat)) : transactional_ring_buffer × transaction :=
  ds.foldl (fun bt d =>
    let r := write_transaction.push_back bt.1 bt.2 d
    (r.1, r.2.1)) (b, t)

/-- The steady-state invariant tying a buffer to its queue of pending
records: no transaction in flight, geometry well formed, the occupied
window of the arena holds exactly the serialized pending records. -/
structure Inv (k : Nat) (b : transactional_ring_buffer)
    (q : List (Nat × List Nat)) : Prop where
  hvalid : b.valid_ = true
  hw : b.writing_ = false
  hr : b.reading_ = false
  hsome : b.memory_.isSome = true
  hm : ∃ m, m ≤ 31 ∧ b.capacity_ = 2 ^ m
  hmask : b.capacity_mask_ = b.capacity_ - 1
  hmin : header_size k ≤ b.capacity_
  hstart : b.start_ < b.capacity_
  hend : b.end_ = (b.start_ + b.size_) % b.capacity_
  hsize : b.size_ = total_size k q
  hsizele : b.size_ ≤ b.capacity_
  hts : ∀ r ∈ q, r.1 < 256 ^ k
  hcontent : cread b.capacity_ b.mem b.start_ b.size_ = q.flatMap (encode_record k)

/-- Scenario of the header-only fill experiment: capacity 16 and a u64
timestamp (k = 8, header 12), three successive try_write plus commit
attempts starting from an empty buffer; yields the final buffer and the
validity of the three write handles. -/
def c7run : transactional_ring_buffer × List Bool :=
  let b0 := (transactional_ring_buffer.reserve 8 {} 16).1
  let p1 := b0.try_write 8 1
  let q1 := write_transaction.commit p1.1 p1.2
  let p2 := q1.1.try_write 8 2
  let q2 := write_transaction.commit p2.1 p2.2
  let p3 := q2.1.try_write 8 3
  let q3 := write_transaction.commit p3.1 p3.2
  (q3.1, [p1.2.valid, p2.2.valid, p3.2.valid])
/-- Scenario for the read-side invalidate question: one committed record of
12 bytes, then a read transaction on which invalidate is called before the
destructor runs commit.  Yields the final buffer, the validity of the read
handle at creation, and its header size. -/
def c2run : transactional_ring_buffer × Bool × Nat :=
  let b0 := (transactional_ring_buffer.reserve 8 {} 16).1
  let b1 := (write_record 8 b0 (5, [])).1
  let p := b1.try_read 8
  let q := read_transaction.invalidate p.1 p.2
  let r := read_transaction.commit q.1 q.2
  (r.1, p.2.valid, p.2.header_size)

/-- Scenario for the transaction-exclusion question: a live write
transaction is move-constructed from, then try_write is called again.
Yields the validity of the first handle, of the moved-to handle, of the
handle from the second try_write, and the writing flag after the move. -/
def c3run : List Bool :=
  let b0 := (transactional_ring_buffer.reserve 4 {} 64).1
  let p1 := b0.try_write 4 0
  let m := write_transaction.move p1.1 p1.2
  let p2 := m.1.try_write 4 1
  [p1.2.valid, m.2.1.valid, p2.2.valid, m.1.writing_]
/-- Scenario for borrow after reserve with a rejected capacity: reserve 16,
then borrow with a non-null pointer and capacity 5 (below minimum and not a
power of two).  Yields the borrow result and the validity flag of the
buffer afterwards. -/
def c8run : Bool × Bool :=
  let b1 := (transactional_ring_buffer.reserve 4 {} 16).1
  let p := b1.borrow 4 (some fun _ => 0) 5
  (p.2, p.1.valid_)

/-! ### Lemma development -/

theorem u32add_eq (a b : Nat) (h : a + b < U32) : u32add a b = a + b := by
  unfold u32add
  exact Nat.mod_eq_of_lt h

theorem u32sub_eq (a b : Nat) (ha : a < U32) (hba : b ≤ a) : u32sub a b = a - b := by
  unfold u32sub
  have hb : b < U32 := lt_of_le_of_lt hba ha
  rw [Nat.mod_eq_of_lt ha, Nat.mod_eq_of_lt hb]
  have h1 : a + (U32 - b) = (a - b) + U32 := by omega
  rw [h1, Nat.add_mod_right, Nat.mod_eq_of_lt (by omega)]

@[simp] theorem leBytes_length (n v : Nat) : (leBytes n v).length = n := by
  induction n generalizing v with
  | zero => rfl
  | succ n ih => simp [leBytes, ih]

theorem leVal_leBytes (n v : Nat) : leVal (leBytes n v) = v % 256 ^ n := by
  induction n generalizing v with
  | zero => simp [leBytes, leVal, Nat.mod_one]
  | succ n ih =>
    simp only [leBytes, leVal, ih]
    rw [Nat.pow_succ, Nat.mul_comm (256 ^ n) 256, Nat.mod_mul]

@[simp] theorem cread_zero (c : Nat) (mem : Nat → Nat) (idx : Nat) :
    cread c mem idx 0 = [] := rfl

theorem cread_succ (c : Nat) (mem : Nat → Nat) (idx n : Nat) :
    cread c mem idx (n + 1) = mem (idx % c) :: cread c mem (idx + 1) n := rfl

@[simp] theorem cread_length (c : Nat) (mem : Nat → Nat) (idx n : Nat) :
    (cread c mem idx n).length = n := by
  induction n generalizing idx with
  | zero => rfl
  | succ n ih => simp [cread_succ, ih]

theorem cread_split (c : Nat) (mem : Nat → Nat) (idx a b : Nat) :
    cread c mem idx (a + b) = cread c mem idx a ++ cread c mem (idx + a) b := by
  induction a generalizing idx with
  | zero => simp
  | succ a ih =>
    have h : a + 1 + b = (a + b) + 1 := by omega
    rw [h, cread_succ, cread_succ, ih]
    simp only [List.cons_append]
    have h2 : idx + 1 + a = idx + (a + 1) := by omega
    rw [h2]

theorem cread_congr_mod (c : Nat) (mem : Nat → Nat) (i j n : Nat)
    (h : i % c = j % c) : cread c mem i n = cread c mem j n := by
  induction n generalizing i j with
  | zero => rfl
  | succ n ih =>
    rw [cread_succ, cread_succ, h, ih (i + 1) (j + 1) (Nat.ModEq.add_right 1 h)]

theorem cwrite_congr_mod (c : Nat) (mem : Nat → Nat) (i j : Nat) (src : List Nat)
    (h : i % c = j % c) : cwrite c mem i src = cwrite c mem j src := by
  induction src generalizing mem i j with
  | nil => rfl
  | cons b bs ih =>
    simp only [cwrite, h]
    exact ih _ (i + 1) (j + 1) (Nat.ModEq.add_right 1 h)

theorem cwrite_append (c : Nat) (mem : Nat → Nat) (idx : Nat) (s t : List Nat) :
    cwrite c mem idx (s ++ t) = cwrite c (cwrite c mem idx s) (idx + s.length) t := by
  induction s generalizing mem idx with
  | nil => simp [cwrite]
  | cons b bs ih =>
    show cwrite c (Function.update mem (idx % c) b) (idx + 1) (bs ++ t) = _
    rw [ih]
    have h : idx + 1 + bs.length = idx + (b :: bs).length := by
      simp only [List.length_cons]; omega
    rw [h]
    rfl

theorem cwrite_apply_notin (c : Nat) (mem : Nat → Nat) (idx : Nat) (src : List Nat)
    (p : Nat) (h : ∀ j, j < src.length → p ≠ (idx + j) % c) :
    cwrite c mem idx src p = mem p := by
  induction src generalizing mem idx with
  | nil => rfl
  | cons b bs ih =>
    simp only [cwrite]
    rw [ih _ (idx + 1) ?_]
    · rw [Function.update_apply]
      have h0 := h 0 (by simp)
      simp only [Nat.add_zero] at h0
      simp [h0]
    · intro j hj
      have := h (j + 1) (by simpa using Nat.succ_lt_succ hj)
      have harith : idx + (j + 1) = idx + 1 + j := by omega
      rwa [harith] at this

/-- Two absolute offsets that differ by less than the capacity have distinct
wrapped indices. -/
theorem mod_ne_of_span (c p q : Nat) (hpq : p < q) (hspan : q - p < c) :
    p % c ≠ q % c := by
  intro h
  have hdvd : c ∣ q - p := (Nat.modEq_iff_dvd' (Nat.le_of_lt hpq)).mp h
  rcases hdvd with ⟨d, hd⟩
  rcases d with _ | d
  · omega
  · have : c ≤ q - p := by
      calc c = c * 1 := by omega
      _ ≤ c * (d + 1) := Nat.mul_le_mul_left c (by omega)
      _ = q - p := hd.symm
    omega

/-- Reading a window disjoint (modulo c) from the written window is unchanged. -/
theorem cread_cwrite_disjoint (c : Nat) (mem : Nat → Nat) (iw : Nat) (src : List Nat)
    (ir n : Nat)
    (h : ∀ a b, a < src.length → b < n → (iw + a) % c ≠ (ir + b) % c) :
    cread c (cwrite c mem iw src) ir n = cread c mem ir n := by
  induction n generalizing ir with
  | zero => rfl
  | succ n ih =>
    rw [cread_succ, cread_succ]
    congr 1
    · apply cwrite_apply_notin
      intro j hj
      have := h j 0 hj (by omega)
      simp only [Nat.add_zero] at this
      exact Ne.symm this
    · apply ih
      intro a b ha hb
      have := h a (b + 1) ha (by omega)
      have harith : ir + (b + 1) = ir + 1 + b := by omega
      rwa [harith] at this

/-- Reading back exactly the window just written yields the written bytes. -/
theorem cread_cwrite_self (c : Nat) (mem : Nat → Nat) (idx : Nat) (src : List Nat)
    (h : src.length ≤ c) :
    cread c (cwrite c mem idx src) idx src.length = src := by
  induction src generalizing mem idx with
  | nil => rfl
  | cons b bs ih =>
    simp only [List.length_cons, cwrite, cread_succ]
    congr 1
    · rw [cwrite_apply_notin]
      · simp [Function.update_apply]
      · intro j hj
        apply mod_ne_of_span c idx (idx + 1 + j) (by omega)
        simp only [List.length_cons] at h
        omega
    · exact ih _ (idx + 1) (by simp only [List.length_cons] at h; omega)

/-- A point outside the contiguous destination range is unchanged by memcpyF. -/
theorem memcpyF_apply_out (mem : Nat → Nat) (dst : Nat) (src : List Nat) (p : Nat)
    (h : ¬(dst ≤ p ∧ p < dst + src.length)) : memcpyF mem dst src p = mem p := by
  simp [memcpyF, h]

/-- In the absence of wrap-around, the canonical write is a single memcpy. -/
theorem cwrite_eq_memcpyF (c : Nat) (mem : Nat → Nat) (idx : Nat) (src : List Nat)
    (h : idx + src.length ≤ c) : cwrite c mem idx src = memcpyF mem idx src := by
  induction src generalizing mem idx with
  | nil =>
    funext p
    simp only [cwrite, memcpyF, List.length_nil, Nat.add_zero]
    rw [if_neg (by omega)]
  | cons b bs ih =>
    have hlen : idx + (bs.length + 1) ≤ c := by simp only [List.length_cons] at h; omega
    have hidx : idx % c = idx := Nat.mod_eq_of_lt (by omega)
    simp only [cwrite]
    rw [ih _ (idx + 1) (by omega)]
    funext p
    simp only [memcpyF, List.length_cons]
    by_cases h1 : idx + 1 ≤ p ∧ p < idx + 1 + bs.length
    · rw [if_pos h1, if_pos (show idx ≤ p ∧ p < idx + (bs.length + 1) by omega)]
      have h3 : p - idx = (p - (idx + 1)) + 1 := by omega
      rw [h3]
      simp
    · rw [if_neg h1, Function.update_apply, hidx]
      by_cases h2 : p = idx
      · subst h2
        rw [if_pos rfl, if_pos (by omega)]
        simp
      · rw [if_neg h2, if_neg (by omega)]

/-- In the absence of wrap-around, the canonical read is a single memread. -/
theorem cread_eq_memread (c : Nat) (mem : Nat → Nat) (idx n : Nat)
    (h : idx + n ≤ c) : cread c mem idx n = memread mem idx n := by
  induction n generalizing idx with
  | zero => simp [memread]
  | succ n ih =>
    rw [cread_succ, ih (idx + 1) (by omega)]
    simp only [memread]
    rw [List.range_succ_eq_map]
    simp only [List.map_cons, List.map_map]
    congr 1
    · rw [Nat.mod_eq_of_lt (by omega)]
      simp
    · apply List.map_congr_left
      intro a _
      simp only [Function.comp_apply]
      congr 1
      omega

/-- llwrite agrees with the canonical wrap-aware write for in-range arguments. -/
theorem llwrite_eq_cwrite (c : Nat) (mem : Nat → Nat) (idx : Nat) (src : List Nat)
    (hidx : idx < c) (hc : c < U32) (hlen : src.length ≤ c) :
    llwrite c mem idx src = cwrite c mem idx src := by
  unfold llwrite
  by_cases h : idx + src.length ≤ c
  · rw [if_pos h, cwrite_eq_memcpyF c mem idx src h]
  · rw [if_neg h]
    have hsub : u32sub c idx = c - idx := u32sub_eq c idx hc (Nat.le_of_lt hidx)
    simp only [hsub]
    have hsplit : src = src.take (c - idx) ++ src.drop (c - idx) := (List.take_append_drop _ _).symm
    conv_rhs => rw [hsplit]
    rw [cwrite_append]
    have htake : (src.take (c - idx)).length = c - idx := by
      rw [List.length_take]
      omega
    rw [htake]
    rw [cwrite_eq_memcpyF c mem idx (src.take (c - idx)) (by omega)]
    have hdroplen : (src.drop (c - idx)).length = src.length - (c - idx) := List.length_drop _ _
    have hmod : (idx + (c - idx)) % c = 0 % c := by
      have : idx + (c - idx) = c := by omega
      rw [this]
      simp
    rw [cwrite_congr_mod c _ (idx + (c - idx)) 0 _ hmod]
    rw [cwrite_eq_memcpyF c _ 0 _ (by omega)]

/-- llread agrees with the canonical wrap-aware read for in-range arguments. -/
theorem llread_eq_cread (c : Nat) (mem : Nat → Nat) (idx n : Nat)
    (hidx : idx < c) (hc : c < U32) (hn : n ≤ c) :
    llread c mem idx n = cread c mem idx n := by
  unfold llread
  by_cases h : idx + n ≤ c
  · rw [if_pos h, cread_eq_memread c mem idx n h]
  · rw [if_neg h]
    have hsub : u32sub c idx = c - idx := u32sub_eq c idx hc (Nat.le_of_lt hidx)
    simp only [hsub]
    have hn2 : n = (c - idx) + (n - (c - idx)) := by omega
    conv_rhs => rw [hn2]
    rw [cread_split]
    congr 1
    · exact (cread_eq_memread c mem idx (c - idx) (by omega)).symm
    · have hmod : (idx + (c - idx)) % c = 0 % c := by
        have : idx + (c - idx) = c := by omega
        rw [this]
        simp
      rw [cread_congr_mod c mem _ 0 _ hmod]
      exact (cread_eq_memread c mem 0 _ (by omega)).symm

/-! ### The buffer state

Fields mirror the C++ class members.  The default values mirror the in-class
initializers of the source; capacity_mask_, start_ and end_ have no
initializer in the source (they are first assigned by set_buffer) and are
modeled as 0.  The arena pointer is an optional byte function, none modeling
a null pointer. -/
/-! ### Arithmetic facts about index_of, round_up and the power-of-two test -/

theorem U32_eq_pow : U32 = 2 ^ 32 := rfl

/-- With a mask of the form 2^m - 1 (m at most 32), index_of reduces to the
residue modulo 2^m. -/
theorem index_of_eq (b : transactional_ring_buffer) (m : Nat)
    (hmask : b.capacity_mask_ = 2 ^ m - 1) (hm : m ≤ 32) (i : Nat) :
    b.index_of i = i % 2 ^ m := by
  unfold transactional_ring_buffer.index_of
  rw [hmask, Nat.and_pow_two_sub_one_eq_mod]
  have hdvd : (2 : Nat) ^ m ∣ U32 := by
    rw [U32_eq_pow]
    exact Nat.pow_dvd_pow 2 hm
  exact Nat.mod_mod_of_dvd i hdvd

/-- The top set bit of a positive number sits at its base-2 logarithm. -/
theorem testBit_log_two (y : Nat) (hy : 0 < y) : y.testBit (Nat.log 2 y) = true := by
  have h1 : 2 ^ Nat.log 2 y ≤ y := Nat.pow_log_le_self 2 (by omega)
  have h2 : y < 2 ^ (Nat.log 2 y + 1) := Nat.lt_pow_succ_log_self (by omega) y
  rw [Nat.testBit_to_div_mod]
  have hdiv : y / 2 ^ Nat.log 2 y = 1 := by
    apply Nat.div_eq_of_lt_le
    · omega
    · rw [Nat.pow_succ] at h2
      omega
  simp [hdiv]

/-- One step of the or-shift cascade doubles the lookahead window of set bits. -/
theorem or_shift_window (y a d : Nat)
    (ha : ∀ i, a.testBit i = true ↔ ∃ j, j < d ∧ y.testBit (i + j) = true) :
    ∀ i, (a ||| a >>> d).testBit i = true ↔
      ∃ j, j < 2 * d ∧ y.testBit (i + j) = true := by
  intro i
  rw [Nat.testBit_or, Nat.testBit_shiftRight, Bool.or_eq_true, ha i, ha (d + i)]
  constructor
  · rintro (⟨j, hj, hb⟩ | ⟨j, hj, hb⟩)
    · exact ⟨j, by omega, hb⟩
    · refine ⟨d + j, by omega, ?_⟩
      have harith : i + (d + j) = d + i + j := by omega
      rwa [harith]
  · rintro ⟨j, hj, hb⟩
    by_cases hjd : j < d
    · exact Or.inl ⟨j, hjd, hb⟩
    · refine Or.inr ⟨j - d, by omega, ?_⟩
      have harith : d + i + (j - d) = i + j := by omega
      rwa [harith]

/-- The or-shift cascade of round_up, applied to a positive 32-bit value,
yields the least power of two above it: round_up returns a power of two
at least max of the request and min_capacity, provided that max is at
most 2^31 (beyond that the uint32_t increment overflows). -/
theorem round_up_spec (k v : Nat) (hbound : max v (min_capacity k) ≤ 2 ^ 31) :
    ∃ m, m ≤ 31 ∧ round_up k v = 2 ^ m ∧ max v (min_capacity k) ≤ 2 ^ m := by
  have hx4 : 4 ≤ max v (min_capacity k) :=
    le_trans (by unfold min_capacity; omega) (le_max_right v (min_capacity k))
  set x := max v (min_capacity k) with hxdef
  set y := x - 1 with hydef
  have hy0 : 0 < y := by omega
  set L := Nat.log 2 y + 1 with hLdef
  have hyL : y < 2 ^ L := Nat.lt_pow_succ_log_self (by omega) y
  have hlogle : Nat.log 2 y ≤ 30 := by
    have : Nat.log 2 y < 31 := Nat.log_lt_of_lt_pow (by omega) (by omega)
    omega
  have hL31 : L ≤ 31 := by omega
  refine ⟨L, hL31, ?_, by omega⟩
  have h0 : ∀ i, y.testBit i = true ↔ ∃ j, j < 1 ∧ y.testBit (i + j) = true := by
    intro i
    constructor
    · intro hb
      exact ⟨0, by omega, by simpa using hb⟩
    · rintro ⟨j, hj, hb⟩
      have hj0 : j = 0 := by omega
      subst hj0
      simpa using hb
  set a1 := y ||| y >>> 1 with ha1
  set a2 := a1 ||| a1 >>> 2 with ha2
  set a3 := a2 ||| a2 >>> 4 with ha3
  set a4 := a3 ||| a3 >>> 8 with ha4
  set a5 := a4 ||| a4 >>> 16 with ha5
  have h1 := or_shift_window y y 1 h0
  rw [← ha1] at h1
  have h2 := or_shift_window y a1 2 h1
  rw [← ha2] at h2
  have h3 := or_shift_window y a2 4 h2
  rw [← ha3] at h3
  have h4 := or_shift_window y a3 8 h3
  rw [← ha4] at h4
  have h5 := or_shift_window y a4 16 h4
  rw [← ha5] at h5
  have hfinal : a5 = 2 ^ L - 1 := by
    apply Nat.eq_of_testBit_eq
    intro i
    rw [Nat.testBit_two_pow_sub_one]
    by_cases hi : i < L
    · rw [decide_eq_true hi]
      apply (h5 i).mpr
      refine ⟨Nat.log 2 y - i, by omega, ?_⟩
      have harith : i + (Nat.log 2 y - i) = Nat.log 2 y := by omega
      rw [harith]
      exact testBit_log_two y hy0
    · rw [decide_eq_false hi]
      cases hb : a5.testBit i
      · rfl
      · exfalso
        rcases (h5 i).mp hb with ⟨j, _, hbit⟩
        have hge := Nat.testBit_implies_ge hbit
        have : i + j ≤ Nat.log 2 y := Nat.le_log_of_pow_le (by omega) hge
        omega
  have hru : round_up k v = (a5 + 1) % U32 := rfl
  rw [hru, hfinal]
  have hL1 : 2 ^ L - 1 + 1 = 2 ^ L := by
    have : 0 < 2 ^ L := Nat.pos_pow_of_pos L (by omega)
    omega
  rw [hL1]
  apply Nat.mod_eq_of_lt
  rw [U32_eq_pow]
  exact Nat.pow_lt_pow_right (by omega) (by omega)

/-- The borrow power-of-two bit test is exact for positive values. -/
theorem land_pred_eq_zero_iff (n : Nat) (hn : 0 < n) :
    n &&& (n - 1) = 0 ↔ ∃ m, n = 2 ^ m := by
  constructor
  · intro h
    refine ⟨Nat.log 2 n, ?_⟩
    apply Nat.eq_of_testBit_eq
    intro i
    rw [Nat.testBit_two_pow]
    by_cases hi : Nat.log 2 n = i
    · rw [decide_eq_true hi, ← hi]
      exact testBit_log_two n hn
    · rw [decide_eq_false hi]
      cases hb : n.testBit i
      · rfl
      exfalso
      have hbit : n.testBit i = true := hb
      have hge := Nat.testBit_implies_ge hbit
      have hile : i ≤ Nat.log 2 n := Nat.le_log_of_pow_le (by omega) hge
      have hilt : i < Nat.log 2 n := by omega
      have hne2 : n ≠ 2 ^ Nat.log 2 n := by
        intro he
        rw [he, Nat.testBit_two_pow] at hbit
        simp only [decide_eq_true_eq] at hbit
        omega
      have hgt : 2 ^ Nat.log 2 n < n :=
        lt_of_le_of_ne (Nat.pow_log_le_self 2 (by omega)) (Ne.symm hne2)
      have hlt : n < 2 ^ (Nat.log 2 n + 1) := Nat.lt_pow_succ_log_self (by omega) n
      have hbitl : (n - 1).testBit (Nat.log 2 n) = true := by
        rw [Nat.testBit_to_div_mod]
        have hdiv : (n - 1) / 2 ^ Nat.log 2 n = 1 := by
          apply Nat.div_eq_of_lt_le
          · omega
          · rw [Nat.pow_succ] at hlt
            omega
        simp [hdiv]
      have hbitn : n.testBit (Nat.log 2 n) = true := testBit_log_two n hn
      have : (n &&& (n - 1)).testBit (Nat.log 2 n) = true := by
        rw [Nat.testBit_and, hbitn, hbitl]
        rfl
      rw [h] at this
      simp at this
  · rintro ⟨m, rfl⟩
    rw [Nat.and_pow_two_sub_one_eq_mod]
    exact Nat.mod_self _

/-! ### Frame lemmas: llwrite only touches the arena contents -/

@[simp] theorem llwrite_valid (b : transactional_ring_buffer) (idx : Nat) (src : List Nat) :
    (b.llwrite idx src).valid_ = b.valid_ := rfl

@[simp] theorem llwrite_writing (b : transactional_ring_buffer) (idx : Nat) (src : List Nat) :
    (b.llwrite idx src).writing_ = b.writing_ := rfl

@[simp] theorem llwrite_reading (b : transactional_ring_buffer) (idx : Nat) (src : List Nat) :
    (b.llwrite idx src).reading_ = b.reading_ := rfl

@[simp] theorem llwrite_capacity (b : transactional_ring_buffer) (idx : Nat) (src : List Nat) :
    (b.llwrite idx src).capacity_ = b.capacity_ := rfl

@[simp] theorem llwrite_mask (b : transactional_ring_buffer) (idx : Nat) (src : List Nat) :
    (b.llwrite idx src).capacity_mask_ = b.capacity_mask_ := rfl

@[simp] theorem llwrite_start (b : transactional_ring_buffer) (idx : Nat) (src : List Nat) :
    (b.llwrite idx src).start_ = b.start_ := rfl

@[simp] theorem llwrite_end (b : transactional_ring_buffer) (idx : Nat) (src : List Nat) :
    (b.llwrite idx src).end_ = b.end_ := rfl

@[simp] theorem llwrite_size (b : transactional_ring_buffer) (idx : Nat) (src : List Nat) :
    (b.llwrite idx src).size_ = b.size_ := rfl

@[simp] theorem llwrite_own (b : transactional_ring_buffer) (idx : Nat) (src : List Nat) :
    (b.llwrite idx src).own_memory_ = b.own_memory_ := rfl

theorem llwrite_mem (b : transactional_ring_buffer) (idx : Nat) (src : List Nat)
    (h : b.memory_.isSome) :
    (b.llwrite idx src).mem = TRB.llwrite b.capacity_ b.mem idx src := by
  rcases hm : b.memory_ with _ | m
  · rw [hm] at h
    simp at h
  · unfold transactional_ring_buffer.llwrite transactional_ring_buffer.mem
    rw [hm]
    rfl

theorem llwrite_isSome (b : transactional_ring_buffer) (idx : Nat) (src : List Nat)
    (h : b.memory_.isSome) : (b.llwrite idx src).memory_.isSome := by
  rcases hm : b.memory_ with _ | m
  · rw [hm] at h
    simp at h
  · unfold transactional_ring_buffer.llwrite
    rw [hm]
    rfl

/-! ### Record-level operations composed from the API

A full producer step is: try_write, one raw push_back of the payload,
commit (the destructor).  A full consumer step is: try_read, one sized
pop_front draining the whole payload, commit (the destructor). -/

/-! ### Frame lemmas for the transaction operations -/

theorem push_back_buffer_frame (b : transactional_ring_buffer) (t : transaction)
    (data : List Nat) :
    ((write_transaction.push_back b t data).1.valid_ = b.valid_) ∧
    ((write_transaction.push_back b t data).1.writing_ = b.writing_) ∧
    ((write_transaction.push_back b t data).1.reading_ = b.reading_) ∧
    ((write_transaction.push_back b t data).1.capacity_ = b.capacity_) ∧
    ((write_transaction.push_back b t data).1.capacity_mask_ = b.capacity_mask_) ∧
    ((write_transaction.push_back b t data).1.start_ = b.start_) ∧
    ((write_transaction.push_back b t data).1.end_ = b.end_) ∧
    ((write_transaction.push_back b t data).1.size_ = b.size_) := by
  unfold write_transaction.push_back
  rcases h : write_transaction.can_write b t data.length with ⟨t2, ok⟩
  cases ok <;> simp

theorem push_many_buffer_frame (ds : List (List Nat)) (b : transactional_ring_buffer)
    (t : transaction) :
    ((push_many b t ds).1.valid_ = b.valid_) ∧
    ((push_many b t ds).1.writing_ = b.writing_) ∧
    ((push_many b t ds).1.reading_ = b.reading_) ∧
    ((push_many b t ds).1.capacity_ = b.capacity_) ∧
    ((push_many b t ds).1.capacity_mask_ = b.capacity_mask_) ∧
    ((push_many b t ds).1.start_ = b.start_) ∧
    ((push_many b t ds).1.end_ = b.end_) ∧
    ((push_many b t ds).1.size_ = b.size_) := by
  induction ds generalizing b t with
  | nil => simp [push_many]
  | cons d ds ih =>
    have hstep := push_back_buffer_frame b t d
    have hrec := ih (write_transaction.push_back b t d).1 (write_transaction.push_back b t d).2.1
    unfold push_many at hrec ⊢
    simp only [List.foldl_cons]
    exact ⟨hrec.1.trans hstep.1, hrec.2.1.trans hstep.2.1,
      hrec.2.2.1.trans hstep.2.2.1, hrec.2.2.2.1.trans hstep.2.2.2.1,
      hrec.2.2.2.2.1.trans hstep.2.2.2.2.1, hrec.2.2.2.2.2.1.trans hstep.2.2.2.2.2.1,
      hrec.2.2.2.2.2.2.1.trans hstep.2.2.2.2.2.2.1,
      hrec.2.2.2.2.2.2.2.trans hstep.2.2.2.2.2.2.2⟩

/-! ### Case analyses for reserve and borrow -/

theorem reserve_cases (k : Nat) (b : transactional_ring_buffer) (n : Nat) :
    b.reserve k n = (b, false) ∨
    ∃ mo cap, b.reserve k n = (b.set_buffer mo cap, (b.set_buffer mo cap).valid_) := by
  unfold transactional_ring_buffer.reserve
  by_cases h1 : ¬ b.own_memory_
  · rw [if_pos h1]
    exact Or.inl rfl
  · rw [if_neg h1]
    dsimp only
    by_cases h2 : b.valid_ = true ∧
        round_up k (if n < min_capacity k then min_capacity k else n) ≤ b.capacity_
    · rw [if_pos h2]
      exact Or.inr ⟨b.memory_, _, rfl⟩
    · rw [if_neg h2]
      exact Or.inr ⟨some fun _ => 0, _, rfl⟩

theorem borrow_cases (k : Nat) (b : transactional_ring_buffer)
    (mo : Option (Nat → Nat)) (cap : Nat) :
    b.borrow k mo cap = (b, false) ∨
    b.borrow k mo cap = ({ b.set_buffer mo cap with own_memory_ := false }, true) ∨
    b.borrow k mo cap = ({ b with valid_ := false }, false) := by
  unfold transactional_ring_buffer.borrow
  by_cases h1 : mo.isNone = true ∨ (b.own_memory_ = true ∧ b.memory_.isSome = true)
  · rw [if_pos h1]
    exact Or.inl rfl
  · rw [if_neg h1]
    by_cases h2 : min_capacity k ≤ cap ∧ cap &&& (u32sub cap 1) = 0
    · rw [if_pos h2]
      exact Or.inr (Or.inl rfl)
    · rw [if_neg h2]
      exact Or.inr (Or.inr rfl)

/-! ### Claim theorems -/

/-- C10: every successful reserve or borrow resets the start and end
cursors to 0 through set_buffer but leaves the occupied-byte counter
size_ untouched; in particular a re-reserve over committed records keeps
the previous non-zero size. -/
theorem c10_cursors_reset_size_kept :
    (∀ (k : Nat) (b : transactional_ring_buffer) (n : Nat),
      (b.reserve k n).2 = true →
        (b.reserve k n).1.start_ = 0 ∧ (b.reserve k n).1.end_ = 0 ∧
        (b.reserve k n).1.size_ = b.size_) ∧
    (∀ (k : Nat) (b : transactional_ring_buffer) (mo : Option (Nat → Nat)) (cap : Nat),
      (b.borrow k mo cap).2 = true →
        (b.borrow k mo cap).1.start_ = 0 ∧ (b.borrow k mo cap).1.end_ = 0 ∧
        (b.borrow k mo cap).1.size_ = b.size_) := by
  constructor
  · intro k b n hres
    rcases reserve_cases k b n with h | ⟨mo, cap, h⟩
    · rw [h] at hres
      simp at hres
    · rw [h]
      exact ⟨rfl, rfl, rfl⟩
  · intro k b mo cap hres
    rcases borrow_cases k b mo cap with h | h | h
    · rw [h] at hres
      simp at hres
    · rw [h]
      exact ⟨rfl, rfl, rfl⟩
    · rw [h] at hres
      simp at hres

/-- Witness for C10: re-reserving a fresh buffer carrying a non-zero
size counter keeps that size while zeroing the cursors. -/
theorem c10_cursors_reset_size_kept_witness :
    ((({ size_ := 9 } : transactional_ring_buffer).reserve 4 16).1.start_ = 0 ∧
     (({ size_ := 9 } : transactional_ring_buffer).reserve 4 16).1.end_ = 0 ∧
     (({ size_ := 9 } : transactional_ring_buffer).reserve 4 16).1.size_ =
       ({ size_ := 9 } : transactional_ring_buffer).size_) :=
  c10_cursors_reset_size_kept.1 4 { size_ := 9 } 16 (by decide)

/-- C8 counterexample: after a successful reserve, borrow with capacity 5
(below minimum and not a power of two) returns false but the buffer stays
valid and usable, contradicting the claim that it is left unusable. -/
theorem c8_counterexample :
    c8run.1 = false ∧ c8run.2 = true := by decide

/-- C8 amended: on a fresh default-constructed buffer, borrow with a null
pointer, a capacity below minimum, or a non power-of-two capacity returns
false and leaves the buffer in its default invalid state; on a buffer that
already reserved an owned arena such a borrow merely returns false and the
buffer stays usable. -/
theorem c8_borrow_bad_fresh (k : Nat) (mo : Option (Nat → Nat)) (n : Nat)
    (hn32 : n < U32)
    (hbad : mo = none ∨ n < min_capacity k ∨ ¬ ∃ e, n = 2 ^ e) :
    (({} : transactional_ring_buffer).borrow k mo n) = ({}, false) := by
  unfold transactional_ring_buffer.borrow
  rcases mo with _ | f
  · rfl
  · have hcond : ¬ ((some f).isNone = true ∨
        (({} : transactional_ring_buffer).own_memory_ = true ∧
         ({} : transactional_ring_buffer).memory_.isSome = true)) := by
      simp
    rw [if_neg hcond]
    have hval : ¬ (min_capacity k ≤ n ∧ n &&& (u32sub n 1) = 0) := by
      rcases hbad with h | h | h
      · simp at h
      · rintro ⟨h1, -⟩
        omega
      · rintro ⟨h1, h2⟩
        apply h
        have hn0 : 0 < n := by
          unfold min_capacity at h1
          omega
        rw [u32sub_eq n 1 hn32 (by omega)] at h2
        exact (land_pred_eq_zero_iff n hn0).mp h2
    rw [if_neg hval]

/-- Witness for C8: borrow of capacity 5 on a fresh buffer fails and leaves
the default state. -/
theorem c8_borrow_bad_fresh_witness :
    (({} : transactional_ring_buffer).borrow 4 (some fun _ => 0) 5) = ({}, false) :=
  c8_borrow_bad_fresh 4 (some fun _ => 0) 5 (by decide)
    (Or.inr (Or.inl (by decide)))

/-- C3: the write_transaction move constructor invalidates the source
handle through invalidate, which also clears the writing flag of the
buffer; a second try_write therefore succeeds while the moved-to handle is
still live, so two write transactions are active at once.  The run yields
the validity of the first handle, of the moved-to handle, of the second
try_write handle, and the writing flag after the move. -/
theorem c3_move_two_live_writes : c3run = [true, true, true, false] := by decide

/-- C2 counterexample: one committed 12-byte record, then a valid read
transaction that is invalidated before its destructor; the destructor
commit does NOT advance start (still 0) nor decrement size (still 12),
contradicting the claim that the commit still runs. -/
theorem c2_counterexample :
    c2run.2.1 = true ∧ c2run.2.2 = 12 ∧
    c2run.1.start_ = 0 ∧ c2run.1.size_ = 12 ∧
    ¬ (c2run.1.start_ = 12 ∧ c2run.1.size_ = 0) := by decide

/-- C2 amended: invalidate on a read transaction marks the handle invalid
and clears the reading flag, so the destructor commit is a no-op: start
and size are left untouched for every buffer and transaction state. -/
theorem c2_read_invalidate_suppresses_commit (b : transactional_ring_buffer)
    (t : transaction) :
    read_transaction.commit (read_transaction.invalidate b t).1
        (read_transaction.invalidate b t).2 =
      ({ b with reading_ := false }, { t with index_ := INVALID_INDEX }) := by
  unfold read_transaction.invalidate read_transaction.commit
  rw [if_neg (by simp [transaction.valid])]

/-- C7 counterexample: with capacity 16 and u64 timestamps (header 12), the
three successive try_write plus commit attempts accept only the first
record: the handle validities are true, false, false, so the accepted count
is 1 and not 2 as claimed; size ends at 12. -/
theorem c7_counterexample :
    c7run.2 = [true, false, false] ∧ c7run.1.size_ = 12 ∧
    ¬ c7run.2.count true = 2 := by decide

/-- C7 amended: with capacity 16 and u64 timestamps, three successive
try_write plus commit attempts on an empty buffer accept exactly one
record, and size is 12 after the failed attempts. -/
theorem c7_exactly_one_record :
    c7run.2.count true = 1 ∧ c7run.1.size_ = 12 ∧ c7run.1.capacity = 16 := by decide

/-- C4 counterexample: requesting 2^31 + 1 bytes overflows the uint32_t
increment at the end of round_up, so reserve on a fresh buffer returns true
yet installs capacity 0, which is neither a power of two nor at least
max of the request and min_capacity. -/
theorem c4_counterexample :
    (transactional_ring_buffer.reserve 8 {} (2 ^ 31 + 1)).2 = true ∧
    (transactional_ring_buffer.reserve 8 {} (2 ^ 31 + 1)).1.capacity = 0 ∧
    ¬ (max (2 ^ 31 + 1) (min_capacity 8) ≤
        (transactional_ring_buffer.reserve 8 {} (2 ^ 31 + 1)).1.capacity) ∧
    ¬ ∃ m, (transactional_ring_buffer.reserve 8 {} (2 ^ 31 + 1)).1.capacity = 2 ^ m := by
  refine ⟨by decide, by decide, by decide, ?_⟩
  rintro ⟨m, hm⟩
  have hcap : (transactional_ring_buffer.reserve 8 {} (2 ^ 31 + 1)).1.capacity = 0 := by
    decide
  rw [hcap] at hm
  have hpos : 0 < 2 ^ m := Nat.pos_pow_of_pos m (by omega)
  omega

/-- C4 amended: for every request n up to 2^31 (and a timestamp width whose
min_capacity also stays below 2^31), reserve on a freshly constructed
owned-mode buffer returns true and installs a capacity that is a power of
two at least max of n and min_capacity; beyond 2^31 the uint32_t round-up
overflows to capacity 0 (see the counterexample). -/
theorem c4_reserve_fresh_pow2 (k n : Nat) (hn : n ≤ 2 ^ 31)
    (hk : min_capacity k ≤ 2 ^ 31) :
    (({} : transactional_ring_buffer).reserve k n).2 = true ∧
    ∃ m, (({} : transactional_ring_buffer).reserve k n).1.capacity = 2 ^ m ∧
      max n (min_capacity k) ≤ 2 ^ m := by
  have hmax : max (if n < min_capacity k then min_capacity k else n) (min_capacity k) =
      max n (min_capacity k) := by
    by_cases h : n < min_capacity k
    · rw [if_pos h]
      omega
    · rw [if_neg h]
  obtain ⟨m, hm31, hru, hge⟩ :=
    round_up_spec k (if n < min_capacity k then min_capacity k else n)
      (by rw [hmax]; exact max_le hn hk)
  rw [hmax] at hge
  unfold transactional_ring_buffer.reserve
  rw [if_neg (by decide)]
  dsimp only
  rw [if_neg (by rintro ⟨hv, -⟩; exact absurd hv (by decide))]
  refine ⟨rfl, m, ?_, hge⟩
  show round_up k (if n < min_capacity k then min_capacity k else n) = 2 ^ m
  exact hru

/-- Witness for C4: reserve of 33 with f32 timestamps installs capacity 64. -/
theorem c4_reserve_fresh_pow2_witness :
    (({} : transactional_ring_buffer).reserve 4 33).2 = true ∧
    ∃ m, (({} : transactional_ring_buffer).reserve 4 33).1.capacity = 2 ^ m ∧
      max 33 (min_capacity 4) ≤ 2 ^ m :=
  c4_reserve_fresh_pow2 4 33 (by decide) (by decide)

@[simp] theorem memread_length (mem : Nat → Nat) (idx n : Nat) :
    (memread mem idx n).length = n := by
  simp [memread]

/-- C5: for a valid read transaction with available at least n, pop_front
with n and a callback returns true, hands the callback the bytes in one
chunk when index + n stays within capacity and otherwise in two chunks of
sizes capacity - index and the remainder, delivering exactly n bytes, and
advances index by n modulo the capacity while lowering available by n; on
an invalid handle or insufficient available bytes it returns false and
changes nothing. -/
theorem c5_pop_front_spec (b : transactional_ring_buffer) (t : transaction) (n m : Nat)
    (hm : m ≤ 31) (hcap : b.capacity_ = 2 ^ m)
    (hmask : b.capacity_mask_ = b.capacity_ - 1)
    (hidx : t.index_ < b.capacity_) (hta : t.available_ < U32) :
    (t.valid = true → n ≤ t.available_ →
      read_transaction.pop_front b t n =
        ({ t with index_ := (t.index_ + n) % b.capacity_,
                  available_ := t.available_ - n },
         (if t.index_ + n ≤ b.capacity_ then [memread b.mem t.index_ n]
          else [memread b.mem t.index_ (b.capacity_ - t.index_),
                memread b.mem 0 (n - (b.capacity_ - t.index_))]), true) ∧
      ((read_transaction.pop_front b t n).2.1.map List.length =
        if t.index_ + n ≤ b.capacity_ then [n]
        else [b.capacity_ - t.index_, n - (b.capacity_ - t.index_)]) ∧
      (read_transaction.pop_front b t n).2.1.flatten.length = n) ∧
    ((t.valid = false ∨ t.available_ < n) →
      read_transaction.pop_front b t n = (t, [], false)) := by
  have hc32 : b.capacity_ < U32 := by
    rw [hcap, U32_eq_pow]
    exact Nat.pow_lt_pow_right (by omega) (by omega)
  constructor
  · intro hvt hn
    have heq : read_transaction.pop_front b t n =
        ({ t with index_ := (t.index_ + n) % b.capacity_,
                  available_ := t.available_ - n },
         (if t.index_ + n ≤ b.capacity_ then [memread b.mem t.index_ n]
          else [memread b.mem t.index_ (b.capacity_ - t.index_),
                memread b.mem 0 (n - (b.capacity_ - t.index_))]), true) := by
      unfold read_transaction.pop_front
      rw [if_neg (by simp [read_transaction.can_read, hvt, hn])]
      dsimp only
      have hmin : min t.available_ n = n := min_eq_right hn
      rw [hmin]
      rw [index_of_eq b m (by rw [hmask, hcap]) (by omega)]
      rw [u32sub_eq t.available_ n hta hn, ← hcap]
      by_cases hwrap : t.index_ + n ≤ b.capacity_
      · rw [if_pos hwrap, if_pos hwrap]
      · rw [if_neg hwrap, if_neg hwrap]
        rw [u32sub_eq b.capacity_ t.index_ hc32 (Nat.le_of_lt hidx)]
        rw [u32sub_eq n (b.capacity_ - t.index_) (by omega) (by omega)]
    refine ⟨heq, ?_, ?_⟩
    · rw [heq]
      by_cases hwrap : t.index_ + n ≤ b.capacity_
      · rw [if_pos hwrap, if_pos hwrap]
        simp
      · rw [if_neg hwrap, if_neg hwrap]
        simp
    · rw [heq]
      by_cases hwrap : t.index_ + n ≤ b.capacity_
      · rw [if_pos hwrap]
        simp
      · rw [if_neg hwrap]
        simp
        omega
  · intro hfail
    unfold read_transaction.pop_front
    rw [if_pos]
    rcases hfail with h | h
    · simp [read_transaction.can_read, h]
    · simp [read_transaction.can_read]
      intro
      omega

/-- Witness for C5: a wrap-around pop of 3 bytes at index 6 of an 8-byte
arena delivers two chunks of sizes 2 and 1 and advances the cursor to 1. -/
theorem c5_pop_front_spec_witness :
    read_transaction.pop_front
        { valid_ := true, capacity_ := 8, capacity_mask_ := 7,
          memory_ := some fun p => p }
        { header_size := 12, header_timestamp := 0, index_ := 6, available_ := 4 } 3 =
      ({ header_size := 12, header_timestamp := 0, index_ := (6 + 3) % 8,
         available_ := 4 - 3 },
       [memread ({ valid_ := true, capacity_ := 8, capacity_mask_ := 7,
                   memory_ := some fun p => p } :
                 transactional_ring_buffer).mem 6 (8 - 6),
        memread ({ valid_ := true, capacity_ := 8, capacity_mask_ := 7,
                   memory_ := some fun p => p } :
                 transactional_ring_buffer).mem 0 (3 - (8 - 6))], true) := by
  have h := (c5_pop_front_spec
    { valid_ := true, capacity_ := 8, capacity_mask_ := 7, memory_ := some fun p => p }
    { header_size := 12, header_timestamp := 0, index_ := 6, available_ := 4 } 3 3
    (by decide) (by decide) (by decide) (by decide) (by decide)).1 (by decide) (by decide)
  rw [h.1]
  rw [if_neg (by decide)]

/-- C9: the typed pop_front for a value of byte width tsize returns the
default value 0 with false on an invalid handle or insufficient available
bytes, leaving the transaction unchanged; otherwise it reads the value at
the current index through llread, advances index by tsize modulo the
capacity, lowers available by tsize and returns the value with true. -/
theorem c9_pop_front_typed_spec (b : transactional_ring_buffer) (t : transaction)
    (tsize m : Nat) (hm : m ≤ 31) (hcap : b.capacity_ = 2 ^ m)
    (hmask : b.capacity_mask_ = b.capacity_ - 1) (hta : t.available_ < U32) :
    (t.valid = true → tsize ≤ t.available_ →
      read_transaction.pop_front_typed b t tsize =
        ({ t with index_ := (t.index_ + tsize) % b.capacity_,
                  available_ := t.available_ - tsize },
         leVal (b.llread t.index_ tsize), true)) ∧
    ((t.valid = false ∨ t.available_ < tsize) →
      read_transaction.pop_front_typed b t tsize = (t, 0, false)) := by
  constructor
  · intro hvt hn
    unfold read_transaction.pop_front_typed
    rw [if_neg (by simp [read_transaction.can_read, hvt, hn])]
    rw [index_of_eq b m (by rw [hmask, hcap]) (by omega)]
    rw [u32sub_eq t.available_ tsize hta hn, ← hcap]
  · intro hfail
    unfold read_transaction.pop_front_typed
    rw [if_pos]
    rcases hfail with h | h
    · simp [read_transaction.can_read, h]
    · simp [read_transaction.can_read]
      intro
      omega

/-- Witness for C9: popping a 4-byte value at index 2 of an 8-byte arena
holding byte value 1 everywhere yields the little-endian value 0x01010101
and advances the cursor to 6. -/
theorem c9_pop_front_typed_spec_witness :
    read_transaction.pop_front_typed
        { valid_ := true, capacity_ := 8, capacity_mask_ := 7,
          memory_ := some fun _ => 1 }
        { header_size := 12, header_timestamp := 0, index_ := 2, available_ := 4 } 4 =
      ({ header_size := 12, header_timestamp := 0, index_ := (2 + 4) % 8,
         available_ := 4 - 4 },
       leVal (({ valid_ := true, capacity_ := 8, capacity_mask_ := 7,
                 memory_ := some fun _ => 1 } :
               transactional_ring_buffer).llread 2 4), true) :=
  (c9_pop_front_typed_spec
    { valid_ := true, capacity_ := 8, capacity_mask_ := 7, memory_ := some fun _ => 1 }
    { header_size := 12, header_timestamp := 0, index_ := 2, available_ := 4 } 4 3
    (by decide) (by decide) (by decide) (by decide)).1 (by decide) (by decide)

/-! ### Helper lemmas for try_write -/

theorem try_write_success (k : Nat) (b : transactional_ring_buffer) (ts : Nat)
    (hv : b.valid_ = true) (hw : b.writing_ = false)
    (hfit : header_size k ≤ u32sub b.capacity_ b.size_) :
    b.try_write k ts =
      ({ b.llwrite (b.index_of (b.end_ + 4)) (leBytes k ts) with writing_ := true },
       { header_size := header_size k, header_timestamp := ts,
         index_ := b.index_of (b.end_ + header_size k),
         available_ := u32sub (u32sub b.capacity_ b.size_) (header_size k) }) := by
  unfold transactional_ring_buffer.try_write write_transaction.mk
  rw [if_pos ⟨hv, by rw [hw]; simp⟩]
  dsimp only
  rw [if_pos hfit]

theorem try_write_mk_congr (k ts : Nat) (b1 b2 : transactional_ring_buffer)
    (h1 : b1.valid_ = b2.valid_) (h2 : b1.writing_ = b2.writing_)
    (h3 : b1.capacity_ = b2.capacity_) (h4 : b1.size_ = b2.size_)
    (h5 : b1.end_ = b2.end_) (h6 : b1.capacity_mask_ = b2.capacity_mask_) :
    (b1.try_write k ts).2 = (b2.try_write k ts).2 := by
  unfold transactional_ring_buffer.try_write write_transaction.mk
    transactional_ring_buffer.index_of
  rw [h1, h2, h3, h4, h5, h6]
  by_cases hc : b2.valid_ = true ∧ ¬ b2.writing_ = true
  · rw [if_pos hc, if_pos hc]
    dsimp only
    by_cases hc2 : header_size k ≤ u32sub b2.capacity_ b2.size_
    · rw [if_pos hc2, if_pos hc2]
    · rw [if_neg hc2, if_neg hc2]
  · rw [if_neg hc, if_neg hc]

/-- C6: after try_write, any sequence of push_back calls, and invalidate,
both size and the end cursor are exactly their values from before the
try_write, and a repeated try_write yields the very same (valid) handle. -/
theorem c6_write_invalidate_frame (k : Nat) (b : transactional_ring_buffer) (ts : Nat)
    (ds : List (List Nat)) (m : Nat)
    (hm : m ≤ 31) (hcap : b.capacity_ = 2 ^ m)
    (hmask : b.capacity_mask_ = b.capacity_ - 1)
    (hv : b.valid_ = true) (hw : b.writing_ = false)
    (hfit : header_size k ≤ u32sub b.capacity_ b.size_) :
    (write_transaction.invalidate
        (push_many (b.try_write k ts).1 (b.try_write k ts).2 ds).1
        (push_many (b.try_write k ts).1 (b.try_write k ts).2 ds).2).1.size_ = b.size_ ∧
    (write_transaction.invalidate
        (push_many (b.try_write k ts).1 (b.try_write k ts).2 ds).1
        (push_many (b.try_write k ts).1 (b.try_write k ts).2 ds).2).1.end_ = b.end_ ∧
    ((write_transaction.invalidate
        (push_many (b.try_write k ts).1 (b.try_write k ts).2 ds).1
        (push_many (b.try_write k ts).1 (b.try_write k ts).2 ds).2).1.try_write k ts).2 =
      (b.try_write k ts).2 ∧
    (b.try_write k ts).2.valid = true := by
  have hb1 : (b.try_write k ts).1 =
      { b.llwrite (b.index_of (b.end_ + 4)) (leBytes k ts) with writing_ := true } := by
    rw [try_write_success k b ts hv hw hfit]
  have hframe := push_many_buffer_frame ds (b.try_write k ts).1 (b.try_write k ts).2
  have hinv1 : (write_transaction.invalidate
      (push_many (b.try_write k ts).1 (b.try_write k ts).2 ds).1
      (push_many (b.try_write k ts).1 (b.try_write k ts).2 ds).2).1 =
      { (push_many (b.try_write k ts).1 (b.try_write k ts).2 ds).1 with
        writing_ := false } := rfl
  have hsize : (push_many (b.try_write k ts).1 (b.try_write k ts).2 ds).1.size_ =
      b.size_ := by
    rw [hframe.2.2.2.2.2.2.2, hb1]
    rfl
  have hend : (push_many (b.try_write k ts).1 (b.try_write k ts).2 ds).1.end_ =
      b.end_ := by
    rw [hframe.2.2.2.2.2.2.1, hb1]
    rfl
  have hvalid : (push_many (b.try_write k ts).1 (b.try_write k ts).2 ds).1.valid_ =
      b.valid_ := by
    rw [hframe.1, hb1]
    rfl
  have hcapa : (push_many (b.try_write k ts).1 (b.try_write k ts).2 ds).1.capacity_ =
      b.capacity_ := by
    rw [hframe.2.2.2.1, hb1]
    rfl
  have hmaska :
      (push_many (b.try_write k ts).1 (b.try_write k ts).2 ds).1.capacity_mask_ =
      b.capacity_mask_ := by
    rw [hframe.2.2.2.2.1, hb1]
    rfl
  refine ⟨?_, ?_, ?_, ?_⟩
  · rw [hinv1]
    exact hsize
  · rw [hinv1]
    exact hend
  · rw [hinv1]
    apply try_write_mk_congr
    · exact hvalid
    · rw [hw]
    · exact hcapa
    · exact hsize
    · exact hend
    · exact hmaska
  · rw [try_write_success k b ts hv hw hfit]
    show ({ header_size := header_size k, header_timestamp := ts,
            index_ := b.index_of (b.end_ + header_size k),
            available_ := u32sub (u32sub b.capacity_ b.size_) (header_size k) } :
          transaction).valid = true
    have hlt : b.index_of (b.end_ + header_size k) < 2 ^ m := by
      rw [index_of_eq b m (by rw [hmask, hcap]) (by omega)]
      exact Nat.mod_lt _ (Nat.pos_pow_of_pos m (by omega))
    have hmle : (2 : Nat) ^ m ≤ 2 ^ 31 := Nat.pow_le_pow_right (by omega) hm
    simp only [transaction.valid, bne_iff_ne, ne_eq, INVALID_INDEX]
    omega

/-- Witness for C6: the concrete append-then-invalidate scenario with f32
timestamps, capacity 32 and two 4-byte appends. -/
theorem c6_write_invalidate_frame_witness :
    (write_transaction.invalidate
        (push_many ((transactional_ring_buffer.reserve 4 {} 32).1.try_write 4 0).1
          ((transactional_ring_buffer.reserve 4 {} 32).1.try_write 4 0).2
          [[42, 0, 0, 0], [42, 0, 0, 0]]).1
        (push_many ((transactional_ring_buffer.reserve 4 {} 32).1.try_write 4 0).1
          ((transactional_ring_buffer.reserve 4 {} 32).1.try_write 4 0).2
          [[42, 0, 0, 0], [42, 0, 0, 0]]).2).1.size_ =
      (transactional_ring_buffer.reserve 4 {} 32).1.size_ ∧
    (write_transaction.invalidate
        (push_many ((transactional_ring_buffer.reserve 4 {} 32).1.try_write 4 0).1
          ((transactional_ring_buffer.reserve 4 {} 32).1.try_write 4 0).2
          [[42, 0, 0, 0], [42, 0, 0, 0]]).1
        (push_many ((transactional_ring_buffer.reserve 4 {} 32).1.try_write 4 0).1
          ((transactional_ring_buffer.reserve 4 {} 32).1.try_write 4 0).2
          [[42, 0, 0, 0], [42, 0, 0, 0]]).2).1.end_ =
      (transactional_ring_buffer.reserve 4 {} 32).1.end_ ∧
    ((write_transaction.invalidate
        (push_many ((transactional_ring_buffer.reserve 4 {} 32).1.try_write 4 0).1
          ((transactional_ring_buffer.reserve 4 {} 32).1.try_write 4 0).2
          [[42, 0, 0, 0], [42, 0, 0, 0]]).1
        (push_many ((transactional_ring_buffer.reserve 4 {} 32).1.try_write 4 0).1
          ((transactional_ring_buffer.reserve 4 {} 32).1.try_write 4 0).2
          [[42, 0, 0, 0], [42, 0, 0, 0]]).2).1.try_write 4 0).2 =
      ((transactional_ring_buffer.reserve 4 {} 32).1.try_write 4 0).2 ∧
    ((transactional_ring_buffer.reserve 4 {} 32).1.try_write 4 0).2.valid = true :=
  c6_write_invalidate_frame 4 (transactional_ring_buffer.reserve 4 {} 32).1 0
    [[42, 0, 0, 0], [42, 0, 0, 0]] 5 (by decide) (by decide) (by decide)
    (by decide) (by decide) (by decide)

/-! ### Helper lemmas towards the round-trip theorem -/

theorem total_size_append (k : Nat) (q r : List (Nat × List Nat)) :
    total_size k (q ++ r) = total_size k q + total_size k r := by
  unfold total_size
  rw [List.map_append, List.sum_append]

theorem total_size_cons (k : Nat) (r : Nat × List Nat) (q : List (Nat × List Nat)) :
    total_size k (r :: q) = record_size k r + total_size k q := by
  unfold total_size
  rw [List.map_cons, List.sum_cons]

@[simp] theorem encode_record_length (k : Nat) (r : Nat × List Nat) :
    (encode_record k r).length = record_size k r := by
  unfold encode_record record_size header_size
  simp
  omega

theorem tx_valid_iff (t : transaction) : t.valid = true ↔ t.index_ ≠ INVALID_INDEX := by
  unfold transaction.valid
  simp [bne_iff_ne]

theorem push_back_success (b : transactional_ring_buffer) (t : transaction)
    (data : List Nat) (hvt : t.valid = true) (hav : data.length ≤ t.available_) :
    write_transaction.push_back b t data =
      (b.llwrite t.index_ data,
       { t with index_ := (b.llwrite t.index_ data).index_of (t.index_ + data.length),
                available_ := u32sub t.available_ data.length,
                header_size := u32add t.header_size data.length }, true) := by
  unfold write_transaction.push_back write_transaction.can_write
  rw [if_neg (by rw [hvt]; simp)]
  rw [if_neg (by omega)]

theorem write_commit_success (b : transactional_ring_buffer) (t : transaction)
    (hvt : t.valid = true) :
    write_transaction.commit b t =
      ({ b.llwrite b.end_ (leBytes 4 t.header_size) with
           end_ := b.index_of (b.end_ + t.header_size),
           size_ := u32add b.size_ t.header_size,
           writing_ := false },
       { t with index_ := INVALID_INDEX }) := by
  unfold write_transaction.commit write_transaction.invalidate
  rw [if_pos hvt]
  rfl

theorem read_commit_success (b : transactional_ring_buffer) (t : transaction)
    (hvt : t.valid = true) :
    read_transaction.commit b t =
      ({ b with start_ := b.index_of (b.start_ + t.header_size),
                size_ := u32sub b.size_ t.header_size,
                reading_ := false },
       { t with index_ := INVALID_INDEX }) := by
  unfold read_transaction.commit
  rw [if_pos hvt]

theorem try_read_success (k : Nat) (b : transactional_ring_buffer)
    (hv : b.valid_ = true) (hr : b.reading_ = false) (hz : 0 < b.size_) :
    b.try_read k =
      ({ b with reading_ := true },
       { header_size := leVal (b.llread b.start_ 4),
         header_timestamp := leVal (b.llread (b.index_of (b.start_ + 4)) k),
         index_ := b.index_of (b.start_ + header_size k),
         available_ := u32sub (leVal (b.llread b.start_ 4)) (header_size k) }) := by
  unfold transactional_ring_buffer.try_read read_transaction.mk
  rw [if_pos hv]
  rw [if_pos ⟨by rw [hr]; simp, hz⟩]

theorem pop_front_flatten (b : transactional_ring_buffer) (t : transaction) (n : Nat)
    (hvt : t.valid = true) (hn : n ≤ t.available_)
    (hidx : t.index_ < b.capacity_) (hC : b.capacity_ < U32) (hta : t.available_ < U32) :
    (read_transaction.pop_front b t n).2.1.flatten =
      TRB.llread b.capacity_ b.mem t.index_ n := by
  unfold read_transaction.pop_front
  rw [if_neg (by simp [read_transaction.can_read, hvt, hn])]
  dsimp only
  rw [min_eq_right hn]
  unfold TRB.llread
  by_cases hwrap : t.index_ + n ≤ b.capacity_
  · rw [if_pos hwrap, if_pos hwrap]
    simp
  · rw [if_neg hwrap, if_neg hwrap]
    rw [u32sub_eq b.capacity_ t.index_ hC (Nat.le_of_lt hidx)]
    rw [u32sub_eq n (b.capacity_ - t.index_) (by omega) (by omega)]
    simp

theorem pop_front_tx (b : transactional_ring_buffer) (t : transaction) (n : Nat)
    (hvt : t.valid = true) (hn : n ≤ t.available_) :
    (read_transaction.pop_front b t n).1 =
      { t with index_ := b.index_of (t.index_ + n),
               available_ := u32sub t.available_ n } ∧
    (read_transaction.pop_front b t n).2.2 = true := by
  unfold read_transaction.pop_front
  rw [if_neg (by simp [read_transaction.can_read, hvt, hn])]
  dsimp only
  rw [min_eq_right hn]
  exact ⟨rfl, rfl⟩

/-- Writing one record (timestamp bytes, payload bytes, then the length
prefix) into the free window leaves the occupied window untouched. -/
theorem record_window_old (C : Nat) (mem : Nat → Nat) (s z kk p : Nat)
    (tsb pl szb : List Nat) (hts : tsb.length = kk) (hpl : pl.length = p)
    (hsz : szb.length = 4) (hfit : z + (4 + kk + p) ≤ C) :
    cread C (cwrite C (cwrite C (cwrite C mem (s + z + 4) tsb) (s + z + 4 + kk) pl)
      (s + z) szb) s z = cread C mem s z := by
  rw [cread_cwrite_disjoint]
  · rw [cread_cwrite_disjoint]
    · rw [cread_cwrite_disjoint]
      intro a b ha hb
      rw [hts] at ha
      exact (mod_ne_of_span C (s + b) (s + z + 4 + a) (by omega) (by omega)).symm
    · intro a b ha hb
      rw [hpl] at ha
      exact (mod_ne_of_span C (s + b) (s + z + 4 + kk + a) (by omega) (by omega)).symm
  · intro a b ha hb
    rw [hsz] at ha
    exact (mod_ne_of_span C (s + b) (s + z + a) (by omega) (by omega)).symm

/-- Reading back the freshly written record window yields the length
prefix, the timestamp bytes and the payload in order. -/
theorem record_window_new (C : Nat) (mem : Nat → Nat) (s z kk p : Nat)
    (tsb pl szb : List Nat) (hts : tsb.length = kk) (hpl : pl.length = p)
    (hsz : szb.length = 4) (hfit : z + (4 + kk + p) ≤ C) :
    cread C (cwrite C (cwrite C (cwrite C mem (s + z + 4) tsb) (s + z + 4 + kk) pl)
      (s + z) szb) (s + z) (4 + kk + p) = szb ++ (tsb ++ pl) := by
  have hA : cread C (cwrite C (cwrite C (cwrite C mem (s + z + 4) tsb) (s + z + 4 + kk) pl)
      (s + z) szb) (s + z) 4 = szb := by
    conv_lhs => rw [← hsz]
    exact cread_cwrite_self C _ (s + z) szb (by omega)
  have hB : cread C (cwrite C (cwrite C (cwrite C mem (s + z + 4) tsb) (s + z + 4 + kk) pl)
      (s + z) szb) (s + z + 4) kk = tsb := by
    have d1 : ∀ a b, a < szb.length → b < kk →
        ((s + z) + a) % C ≠ ((s + z + 4) + b) % C := by
      intro a b ha hb
      rw [hsz] at ha
      exact mod_ne_of_span C (s + z + a) (s + z + 4 + b) (by omega) (by omega)
    rw [cread_cwrite_disjoint C _ (s + z) szb (s + z + 4) kk d1]
    have d2 : ∀ a b, a < pl.length → b < kk →
        ((s + z + 4 + kk) + a) % C ≠ ((s + z + 4) + b) % C := by
      intro a b ha hb
      rw [hpl] at ha
      exact (mod_ne_of_span C (s + z + 4 + b) (s + z + 4 + kk + a)
        (by omega) (by omega)).symm
    rw [cread_cwrite_disjoint C _ (s + z + 4 + kk) pl (s + z + 4) kk d2]
    conv_lhs => rw [← hts]
    exact cread_cwrite_self C _ (s + z + 4) tsb (by omega)
  have hD : cread C (cwrite C (cwrite C (cwrite C mem (s + z + 4) tsb) (s + z + 4 + kk) pl)
      (s + z) szb) (s + z + 4 + kk) p = pl := by
    have d3 : ∀ a b, a < szb.length → b < p →
        ((s + z) + a) % C ≠ ((s + z + 4 + kk) + b) % C := by
      intro a b ha hb
      rw [hsz] at ha
      exact mod_ne_of_span C (s + z + a) (s + z + 4 + kk + b) (by omega) (by omega)
    rw [cread_cwrite_disjoint C _ (s + z) szb (s + z + 4 + kk) p d3]
    conv_lhs => rw [← hpl]
    exact cread_cwrite_self C _ (s + z + 4 + kk) pl (by omega)
  rw [show 4 + kk + p = 4 + (kk + p) from by omega, cread_split, cread_split,
    hA, hB, hD]

/-- Splitting an equation about a read window at a known length. -/
theorem cread_append_inj (C : Nat) (mem : Nat → Nat) (s a b : Nat) (X Y : List Nat)
    (h : cread C mem s (a + b) = X ++ Y) (hX : X.length = a) :
    cread C mem s a = X ∧ cread C mem (s + a) b = Y := by
  rw [cread_split] at h
  exact List.append_inj h (by rw [cread_length, hX])


/-- One producer step preserves the buffer invariant: a record that fits is
accepted and appended to the pending queue. -/
theorem write_record_step (k : Nat) (b : transactional_ring_buffer)
    (q : List (Nat × List Nat)) (r : Nat × List Nat)
    (hinv : Inv k b q)
    (hfit : b.size_ + record_size k r ≤ b.capacity_)
    (htsr : r.1 < 256 ^ k) :
    (write_record k b r).2 = true ∧
    Inv k (write_record k b r).1 (q ++ [r]) ∧
    (write_record k b r).1.capacity_ = b.capacity_ := by
  obtain ⟨m, hm31, hcapm⟩ := hinv.hm
  have hC32 : b.capacity_ < U32 := by
    rw [hcapm, U32_eq_pow]
    exact Nat.pow_lt_pow_right (by omega) (by omega)
  have hCle : b.capacity_ ≤ 2 ^ 31 := by
    rw [hcapm]
    exact Nat.pow_le_pow_right (by omega) hm31
  have hhs : header_size k = 4 + k := rfl
  have hrs : record_size k r = 4 + k + r.2.length := rfl
  have hmin := hinv.hmin
  have hCpos : 0 < b.capacity_ := by rw [hhs] at hmin; omega
  have hzle := hinv.hsizele
  have hfit2 : b.size_ + (4 + k + r.2.length) ≤ b.capacity_ := by
    rw [hrs] at hfit
    exact hfit
  have hsub1 : u32sub b.capacity_ b.size_ = b.capacity_ - b.size_ :=
    u32sub_eq _ _ hC32 hzle
  have hfith : header_size k ≤ u32sub b.capacity_ b.size_ := by
    rw [hsub1, hhs]
    omega
  have htw := try_write_success k b r.1 hinv.hvalid hinv.hw hfith
  have hio : ∀ i, b.index_of i = i % b.capacity_ := fun i => by
    rw [index_of_eq b m (by rw [hinv.hmask, hcapm]) (by omega), hcapm]
  have hINV : INVALID_INDEX = 4294967295 := rfl
  have hv1 : ({
      header_size := header_size k, header_timestamp := r.1,
      index_ := b.index_of (b.end_ + header_size k),
      available_ := u32sub (u32sub b.capacity_ b.size_) (header_size k) } :
      transaction).valid = true := by
    rw [tx_valid_iff]
    show b.index_of (b.end_ + header_size k) ≠ INVALID_INDEX
    rw [hio]
    have h1 : (b.end_ + header_size k) % b.capacity_ < b.capacity_ :=
      Nat.mod_lt _ hCpos
    omega
  have hav1 : r.2.length ≤ ({
      header_size := header_size k, header_timestamp := r.1,
      index_ := b.index_of (b.end_ + header_size k),
      available_ := u32sub (u32sub b.capacity_ b.size_) (header_size k) } :
      transaction).available_ := by
    show r.2.length ≤ u32sub (u32sub b.capacity_ b.size_) (header_size k)
    rw [hsub1, u32sub_eq _ _ (by omega) (by rw [hhs]; omega), hhs]
    omega
  have hpb := push_back_success
    ({ b.llwrite (b.index_of (b.end_ + 4)) (leBytes k r.1) with writing_ := true })
    ({
      header_size := header_size k, header_timestamp := r.1,
      index_ := b.index_of (b.end_ + header_size k),
      available_ := u32sub (u32sub b.capacity_ b.size_) (header_size k) })
    r.2 hv1 hav1
  have hv2 : (write_transaction.push_back
      ({ b.llwrite (b.index_of (b.end_ + 4)) (leBytes k r.1) with writing_ := true })
      ({
        header_size := header_size k, header_timestamp := r.1,
        index_ := b.index_of (b.end_ + header_size k),
        available_ := u32sub (u32sub b.capacity_ b.size_) (header_size k) })
      r.2).2.1.valid = true := by
    rw [hpb, tx_valid_iff]
    show b.index_of (b.index_of (b.end_ + header_size k) + r.2.length) ≠ INVALID_INDEX
    rw [hio (b.index_of (b.end_ + header_size k) + r.2.length)]
    have h1 : (b.index_of (b.end_ + header_size k) + r.2.length) % b.capacity_ <
        b.capacity_ := Nat.mod_lt _ hCpos
    omega
  have hcm := write_commit_success
    (write_transaction.push_back
      ({ b.llwrite (b.index_of (b.end_ + 4)) (leBytes k r.1) with writing_ := true })
      ({
        header_size := header_size k, header_timestamp := r.1,
        index_ := b.index_of (b.end_ + header_size k),
        available_ := u32sub (u32sub b.capacity_ b.size_) (header_size k) })
      r.2).1
    (write_transaction.push_back
      ({ b.llwrite (b.index_of (b.end_ + 4)) (leBytes k r.1) with writing_ := true })
      ({
        header_size := header_size k, header_timestamp := r.1,
        index_ := b.index_of (b.end_ + header_size k),
        available_ := u32sub (u32sub b.capacity_ b.size_) (header_size k) })
      r.2).2.1 hv2
  have hhs2 : u32add (header_size k) r.2.length = 4 + k + r.2.length := by
    rw [u32add_eq _ _ (by rw [hhs]; omega), hhs]
  have hflag : (write_record k b r).2 = true := by
    unfold write_record
    rw [htw]
    dsimp only
    rw [hpb]
    dsimp only
    rw [hv1]
    rfl
  have hbf : (write_record k b r).1 =
      (write_transaction.commit
        (write_transaction.push_back
          ({ b.llwrite (b.index_of (b.end_ + 4)) (leBytes k r.1) with
             writing_ := true })
          ({
            header_size := header_size k, header_timestamp := r.1,
            index_ := b.index_of (b.end_ + header_size k),
            available_ := u32sub (u32sub b.capacity_ b.size_) (header_size k) })
          r.2).1
        (write_transaction.push_back
          ({ b.llwrite (b.index_of (b.end_ + 4)) (leBytes k r.1) with
             writing_ := true })
          ({
            header_size := header_size k, header_timestamp := r.1,
            index_ := b.index_of (b.end_ + header_size k),
            available_ := u32sub (u32sub b.capacity_ b.size_) (header_size k) })
          r.2).2.1).1 := by
    unfold write_record
    rw [htw]
  refine ⟨hflag, ?_, ?_⟩
  · rw [hbf, hcm, hpb]
    dsimp only
    have hsz2 : u32add b.size_ (u32add (header_size k) r.2.length) =
        b.size_ + (4 + k + r.2.length) := by
      rw [hhs2, u32add_eq _ _ (by omega)]
    have hsome1 : ({ b.llwrite (b.index_of (b.end_ + 4)) (leBytes k r.1) with
        writing_ := true } : transactional_ring_buffer).memory_.isSome = true := by
      show (transactional_ring_buffer.llwrite b (b.index_of (b.end_ + 4))
        (leBytes k r.1)).memory_.isSome = true
      exact llwrite_isSome b _ _ hinv.hsome
    have hsome2 : (transactional_ring_buffer.llwrite
        ({ b.llwrite (b.index_of (b.end_ + 4)) (leBytes k r.1) with
           writing_ := true })
        (b.index_of (b.end_ + header_size k)) r.2).memory_.isSome = true :=
      llwrite_isSome _ _ _ hsome1
    refine Inv.mk hinv.hvalid rfl hinv.hr ?_ ⟨m, hm31, hcapm⟩ hinv.hmask
      (by exact hmin) (by exact hinv.hstart) ?_ ?_ ?_ ?_ ?_
    · apply llwrite_isSome
      apply llwrite_isSome
      show (transactional_ring_buffer.llwrite b (b.index_of (b.end_ + 4))
        (leBytes k r.1)).memory_.isSome = true
      exact llwrite_isSome b _ _ hinv.hsome
    · show b.index_of (b.end_ + u32add (header_size k) r.2.length) =
        (b.start_ + u32add b.size_ (u32add (header_size k) r.2.length)) %
          b.capacity_
      rw [hsz2, hhs2, hio, hinv.hend, Nat.mod_add_mod]
      rw [Nat.add_assoc]
    · show u32add b.size_ (u32add (header_size k) r.2.length) =
        total_size k (q ++ [r])
      rw [hsz2, total_size_append, hinv.hsize]
      unfold total_size record_size header_size
      simp
    · show u32add b.size_ (u32add (header_size k) r.2.length) ≤ b.capacity_
      rw [hsz2]
      exact hfit2
    · intro x hx
      rcases List.mem_append.mp hx with h | h
      · exact hinv.hts x h
      · rcases List.mem_singleton.mp h with rfl
        exact htsr
    · show cread b.capacity_
        (transactional_ring_buffer.mem
          (transactional_ring_buffer.llwrite
            (transactional_ring_buffer.llwrite
              ({ b.llwrite (b.index_of (b.end_ + 4)) (leBytes k r.1) with
                 writing_ := true })
              (b.index_of (b.end_ + header_size k)) r.2)
            b.end_ (leBytes 4 (u32add (header_size k) r.2.length))))
        b.start_ (u32add b.size_ (u32add (header_size k) r.2.length)) =
        (q ++ [r]).flatMap (encode_record k)
      rw [hsz2]
      have hm1 : (transactional_ring_buffer.llwrite b (b.index_of (b.end_ + 4))
          (leBytes k r.1)).mem =
          cwrite b.capacity_ b.mem (b.start_ + b.size_ + 4) (leBytes k r.1) := by
        rw [llwrite_mem b _ _ hinv.hsome]
        rw [llwrite_eq_cwrite _ _ _ _ (by rw [hio]; exact Nat.mod_lt _ hCpos)
          hC32 (by rw [leBytes_length]; omega)]
        apply cwrite_congr_mod
        rw [hio, Nat.mod_mod_of_dvd _ dvd_rfl, hinv.hend, Nat.mod_add_mod]
      have hm2 : (transactional_ring_buffer.llwrite
          ({ b.llwrite (b.index_of (b.end_ + 4)) (leBytes k r.1) with
             writing_ := true })
          (b.index_of (b.end_ + header_size k)) r.2).mem =
          cwrite b.capacity_
            (cwrite b.capacity_ b.mem (b.start_ + b.size_ + 4) (leBytes k r.1))
            (b.start_ + b.size_ + 4 + k) r.2 := by
        rw [llwrite_mem _ _ _ hsome1]
        show TRB.llwrite b.capacity_
          ((transactional_ring_buffer.llwrite b (b.index_of (b.end_ + 4))
            (leBytes k r.1)).mem) (b.index_of (b.end_ + header_size k)) r.2 = _
        rw [hm1]
        rw [llwrite_eq_cwrite _ _ _ _ (by rw [hio]; exact Nat.mod_lt _ hCpos)
          hC32 (by omega)]
        apply cwrite_congr_mod
        rw [hio, Nat.mod_mod_of_dvd _ dvd_rfl, hinv.hend, hhs, Nat.mod_add_mod]
        rw [show b.start_ + b.size_ + (4 + k) = b.start_ + b.size_ + 4 + k from
          by omega]
      have hmF : (transactional_ring_buffer.mem
          (transactional_ring_buffer.llwrite
            (transactional_ring_buffer.llwrite
              ({ b.llwrite (b.index_of (b.end_ + 4)) (leBytes k r.1) with
                 writing_ := true })
              (b.index_of (b.end_ + header_size k)) r.2)
            b.end_ (leBytes 4 (u32add (header_size k) r.2.length)))) =
          cwrite b.capacity_
            (cwrite b.capacity_
              (cwrite b.capacity_ b.mem (b.start_ + b.size_ + 4) (leBytes k r.1))
              (b.start_ + b.size_ + 4 + k) r.2)
            (b.start_ + b.size_) (leBytes 4 (4 + k + r.2.length)) := by
        rw [llwrite_mem _ _ _ hsome2]
        show TRB.llwrite b.capacity_
          ((transactional_ring_buffer.llwrite
            ({ b.llwrite (b.index_of (b.end_ + 4)) (leBytes k r.1) with
               writing_ := true })
            (b.index_of (b.end_ + header_size k)) r.2).mem)
          b.end_ (leBytes 4 (u32add (header_size k) r.2.length)) = _
        rw [hm2, hhs2]
        have hendlt : b.end_ < b.capacity_ := by
          rw [hinv.hend]
          exact Nat.mod_lt _ hCpos
        rw [llwrite_eq_cwrite _ _ _ _ hendlt hC32 (by rw [leBytes_length]; omega)]
        apply cwrite_congr_mod
        rw [hinv.hend, Nat.mod_mod_of_dvd _ dvd_rfl]
      rw [hmF]
      have hsplit := cread_split b.capacity_
        (cwrite b.capacity_
          (cwrite b.capacity_
            (cwrite b.capacity_ b.mem (b.start_ + b.size_ + 4) (leBytes k r.1))
            (b.start_ + b.size_ + 4 + k) r.2)
          (b.start_ + b.size_) (leBytes 4 (4 + k + r.2.length)))
        b.start_ b.size_ (4 + k + r.2.length)
      rw [hsplit]
      have hold := record_window_old b.capacity_ b.mem b.start_ b.size_ k
        r.2.length (leBytes k r.1) r.2 (leBytes 4 (4 + k + r.2.length))
        (leBytes_length k r.1) rfl (leBytes_length 4 _) (by omega)
      have hnew := record_window_new b.capacity_ b.mem b.start_ b.size_ k
        r.2.length (leBytes k r.1) r.2 (leBytes 4 (4 + k + r.2.length))
        (leBytes_length k r.1) rfl (leBytes_length 4 _) (by omega)
      rw [hold, hnew, hinv.hcontent]
      have henc : encode_record k r =
          leBytes 4 (4 + k + r.2.length) ++ (leBytes k r.1 ++ r.2) := by
        unfold encode_record header_size
        rw [List.append_assoc]
      rw [← henc]
      simp
  · rw [hbf, hcm, hpb]
    rfl

/-- One consumer step preserves the buffer invariant: with at least one
pending record the read transaction is valid, returns exactly the front
record and removes it from the queue. -/
theorem read_record_step (k : Nat) (b : transactional_ring_buffer)
    (r : Nat × List Nat) (q : List (Nat × List Nat))
    (hinv : Inv k b (r :: q)) :
    (read_record k b).2 = some r ∧
    Inv k (read_record k b).1 q ∧
    (read_record k b).1.capacity_ = b.capacity_ := by
  obtain ⟨m, hm31, hcapm⟩ := hinv.hm
  have hC32 : b.capacity_ < U32 := by
    rw [hcapm, U32_eq_pow]
    exact Nat.pow_lt_pow_right (by omega) (by omega)
  have hCle : b.capacity_ ≤ 2 ^ 31 := by
    rw [hcapm]
    exact Nat.pow_le_pow_right (by omega) hm31
  have hhs : header_size k = 4 + k := rfl
  have hrsplit : record_size k r = 4 + k + r.2.length := rfl
  have hmin := hinv.hmin
  have hCpos : 0 < b.capacity_ := by rw [hhs] at hmin; omega
  have hzle := hinv.hsizele
  have hINV : INVALID_INDEX = 4294967295 := rfl
  have hU32 : U32 = 4294967296 := rfl
  have hio : ∀ i, b.index_of i = i % b.capacity_ := fun i => by
    rw [index_of_eq b m (by rw [hinv.hmask, hcapm]) (by omega), hcapm]
  have hio2 : ∀ i, ({ b with reading_ := true } :
      transactional_ring_buffer).index_of i = i % b.capacity_ := fun i => hio i
  have hszC : b.size_ = record_size k r + total_size k q := by
    rw [hinv.hsize, total_size_cons]
  have hrsle : record_size k r ≤ b.size_ := by rw [hszC]; omega
  have hrsC : record_size k r ≤ b.capacity_ := le_trans hrsle hzle
  have hplC : r.2.length ≤ b.capacity_ := by
    have h := hrsC
    rw [hrsplit] at h
    omega
  have hz : 0 < b.size_ := by
    rw [hszC, hrsplit]
    omega
  have h2564 : (256 : Nat) ^ 4 = 4294967296 := by norm_num
  have h0 := hinv.hcontent
  rw [hszC, List.flatMap_cons] at h0
  obtain ⟨hR, hQ⟩ := cread_append_inj b.capacity_ b.mem b.start_
    (record_size k r) (total_size k q) (encode_record k r)
    (q.flatMap (encode_record k)) h0 (encode_record_length k r)
  have henc2 : encode_record k r =
      leBytes 4 (record_size k r) ++ (leBytes k r.1 ++ r.2) := by
    unfold encode_record record_size
    rw [List.append_assoc]
  rw [henc2] at hR
  rw [show record_size k r = 4 + (k + r.2.length) from by rw [hrsplit]; omega] at hR
  obtain ⟨hH, hTP⟩ := cread_append_inj b.capacity_ b.mem b.start_ 4
    (k + r.2.length) (leBytes 4 (4 + (k + r.2.length))) (leBytes k r.1 ++ r.2)
    hR (leBytes_length 4 _)
  obtain ⟨hT, hP⟩ := cread_append_inj b.capacity_ b.mem (b.start_ + 4) k
    r.2.length (leBytes k r.1) r.2 hTP (leBytes_length k r.1)
  have hdrv : leVal (b.llread b.start_ 4) = record_size k r := by
    show leVal (TRB.llread b.capacity_ b.mem b.start_ 4) = record_size k r
    rw [llread_eq_cread b.capacity_ b.mem b.start_ 4 hinv.hstart hC32
      (by rw [hhs] at hmin; omega)]
    rw [hH, leVal_leBytes, h2564, hrsplit]
    have h := hrsC
    rw [hrsplit] at h
    omega
  have htsr1 : r.1 < 256 ^ k := hinv.hts r (List.mem_cons_self r q)
  have htsv : leVal (b.llread (b.index_of (b.start_ + 4)) k) = r.1 := by
    show leVal (TRB.llread b.capacity_ b.mem (b.index_of (b.start_ + 4)) k) = r.1
    rw [hio]
    rw [llread_eq_cread b.capacity_ b.mem ((b.start_ + 4) % b.capacity_) k
      (Nat.mod_lt _ hCpos) hC32 (by rw [hhs] at hmin; omega)]
    rw [cread_congr_mod b.capacity_ b.mem ((b.start_ + 4) % b.capacity_)
      (b.start_ + 4) k (Nat.mod_mod_of_dvd _ dvd_rfl)]
    rw [hT, leVal_leBytes]
    exact Nat.mod_eq_of_lt htsr1
  have havail : u32sub (record_size k r) (header_size k) = r.2.length := by
    rw [u32sub_eq (record_size k r) (header_size k)
      (by omega) (by rw [hhs, hrsplit]; omega)]
    rw [hrsplit, hhs]
    omega
  have htr := try_read_success k b hinv.hvalid hinv.hr hz
  rw [hdrv, htsv, havail] at htr
  have hvt : ({
      header_size := record_size k r, header_timestamp := r.1,
      index_ := b.index_of (b.start_ + header_size k),
      available_ := r.2.length } : transaction).valid = true := by
    rw [tx_valid_iff]
    show b.index_of (b.start_ + header_size k) ≠ INVALID_INDEX
    rw [hio]
    have h1 : (b.start_ + header_size k) % b.capacity_ < b.capacity_ :=
      Nat.mod_lt _ hCpos
    omega
  have hpft := pop_front_tx ({ b with reading_ := true })
    ({
       header_size := record_size k r, header_timestamp := r.1,
       index_ := b.index_of (b.start_ + header_size k),
       available_ := r.2.length }) r.2.length hvt (Nat.le_refl r.2.length)
  have hflat : (read_transaction.pop_front ({ b with reading_ := true })
      ({
         header_size := record_size k r, header_timestamp := r.1,
         index_ := b.index_of (b.start_ + header_size k),
         available_ := r.2.length }) r.2.length).2.1.flatten = r.2 := by
    rw [pop_front_flatten ({ b with reading_ := true })
      ({
         header_size := record_size k r, header_timestamp := r.1,
         index_ := b.index_of (b.start_ + header_size k),
         available_ := r.2.length }) r.2.length hvt (Nat.le_refl r.2.length)
      (by show b.index_of (b.start_ + header_size k) < b.capacity_
          rw [hio]
          exact Nat.mod_lt _ hCpos)
      hC32 (by show r.2.length < U32; omega)]
    show TRB.llread b.capacity_ b.mem
      (b.index_of (b.start_ + header_size k)) r.2.length = r.2
    rw [hio]
    rw [llread_eq_cread b.capacity_ b.mem
      ((b.start_ + header_size k) % b.capacity_) r.2.length
      (Nat.mod_lt _ hCpos) hC32 hplC]
    rw [cread_congr_mod b.capacity_ b.mem
      ((b.start_ + header_size k) % b.capacity_)
      (b.start_ + header_size k) r.2.length (Nat.mod_mod_of_dvd _ dvd_rfl)]
    rw [show b.start_ + header_size k = b.start_ + 4 + k from by rw [hhs]; omega]
    exact hP
  have hvt2 : ((read_transaction.pop_front ({ b with reading_ := true })
      ({
         header_size := record_size k r, header_timestamp := r.1,
         index_ := b.index_of (b.start_ + header_size k),
         available_ := r.2.length }) r.2.length).1).valid = true := by
    rw [hpft.1, tx_valid_iff]
    show ({ b with reading_ := true } : transactional_ring_buffer).index_of
      (b.index_of (b.start_ + header_size k) + r.2.length) ≠ INVALID_INDEX
    rw [hio2]
    have h1 : (b.index_of (b.start_ + header_size k) + r.2.length) % b.capacity_
        < b.capacity_ := Nat.mod_lt _ hCpos
    omega
  have hhsT2 : ((read_transaction.pop_front ({ b with reading_ := true })
      ({
         header_size := record_size k r, header_timestamp := r.1,
         index_ := b.index_of (b.start_ + header_size k),
         available_ := r.2.length }) r.2.length).1).header_size =
      record_size k r := by
    rw [hpft.1]
  have hcm := read_commit_success ({ b with reading_ := true })
    ((read_transaction.pop_front ({ b with reading_ := true })
      ({
         header_size := record_size k r, header_timestamp := r.1,
         index_ := b.index_of (b.start_ + header_size k),
         available_ := r.2.length }) r.2.length).1) hvt2
  rw [hhsT2] at hcm
  have hbf : (read_record k b).1 =
      (read_transaction.commit ({ b with reading_ := true })
        ((read_transaction.pop_front ({ b with reading_ := true })
          ({
             header_size := record_size k r, header_timestamp := r.1,
             index_ := b.index_of (b.start_ + header_size k),
             available_ := r.2.length }) r.2.length).1)).1 := by
    unfold read_record
    rw [htr]
    dsimp only
    rw [if_pos hvt]
  have hfl : (read_record k b).2 =
      some (r.1, (read_transaction.pop_front ({ b with reading_ := true })
        ({
           header_size := record_size k r, header_timestamp := r.1,
           index_ := b.index_of (b.start_ + header_size k),
           available_ := r.2.length }) r.2.length).2.1.flatten) := by
    unfold read_record
    rw [htr]
    dsimp only
    rw [if_pos hvt]
  refine ⟨?_, ?_, ?_⟩
  · rw [hfl, hflat]
  · rw [hbf, hcm]
    dsimp only
    refine Inv.mk hinv.hvalid hinv.hw rfl hinv.hsome ⟨m, hm31, hcapm⟩ hinv.hmask
      (by exact hmin) ?_ ?_ ?_ ?_ ?_ ?_
    · show ({ b with reading_ := true } : transactional_ring_buffer).index_of
        (b.start_ + record_size k r) < b.capacity_
      rw [hio2]
      exact Nat.mod_lt _ hCpos
    · show b.end_ = (({ b with reading_ := true } :
        transactional_ring_buffer).index_of (b.start_ + record_size k r) +
        u32sub b.size_ (record_size k r)) % b.capacity_
      rw [hio2, u32sub_eq b.size_ (record_size k r) (by omega) hrsle,
        Nat.mod_add_mod]
      rw [show b.start_ + record_size k r + (b.size_ - record_size k r) =
        b.start_ + b.size_ from by omega]
      exact hinv.hend
    · show u32sub b.size_ (record_size k r) = total_size k q
      rw [u32sub_eq b.size_ (record_size k r) (by omega) hrsle, hszC]
      omega
    · show u32sub b.size_ (record_size k r) ≤ b.capacity_
      rw [u32sub_eq b.size_ (record_size k r) (by omega) hrsle]
      omega
    · exact fun x hx => hinv.hts x (List.mem_cons_of_mem r hx)
    · show cread b.capacity_ b.mem
        (({ b with reading_ := true } : transactional_ring_buffer).index_of
          (b.start_ + record_size k r)) (u32sub b.size_ (record_size k r)) =
        q.flatMap (encode_record k)
      rw [hio2, u32sub_eq b.size_ (record_size k r) (by omega) hrsle]
      rw [show b.size_ - record_size k r = total_size k q from
        by rw [hszC]; omega]
      rw [cread_congr_mod b.capacity_ b.mem
        ((b.start_ + record_size k r) % b.capacity_) (b.start_ + record_size k r)
        (total_size k q) (Nat.mod_mod_of_dvd _ dvd_rfl)]
      exact hQ
  · rw [hbf, hcm]

theorem total_size_nil (k : Nat) : total_size k [] = 0 := rfl

/-- Committing a list of records one transaction at a time preserves the
invariant and appends the records to the pending queue, capacity unchanged. -/
theorem write_all_inv (k : Nat) (rs : List (Nat × List Nat))
    (b : transactional_ring_buffer) (q : List (Nat × List Nat))
    (hinv : Inv k b q)
    (hfit : total_size k q + total_size k rs ≤ b.capacity_)
    (hts : ∀ r ∈ rs, r.1 < 256 ^ k) :
    Inv k (write_all k b rs) (q ++ rs) ∧
    (write_all k b rs).capacity_ = b.capacity_ := by
  induction rs generalizing b q with
  | nil =>
    constructor
    · show Inv k b (q ++ [])
      rw [List.append_nil]
      exact hinv
    · rfl
  | cons r rs ih =>
    have hrfit : b.size_ + record_size k r ≤ b.capacity_ := by
      rw [hinv.hsize]
      rw [total_size_cons] at hfit
      omega
    obtain ⟨-, hinv2, hcap⟩ := write_record_step k b q r hinv hrfit
      (hts r (List.mem_cons_self r rs))
    have hfit2 : total_size k (q ++ [r]) + total_size k rs ≤
        (write_record k b r).1.capacity_ := by
      rw [total_size_append, total_size_cons, total_size_nil, hcap]
      rw [total_size_cons] at hfit
      omega
    obtain ⟨h3, h4⟩ := ih (write_record k b r).1 (q ++ [r]) hinv2 hfit2
      (fun x hx => hts x (List.mem_cons_of_mem r hx))
    constructor
    · show Inv k (write_all k (write_record k b r).1 rs) (q ++ r :: rs)
      rw [show q ++ r :: rs = (q ++ [r]) ++ rs from by simp]
      exact h3
    · show (write_all k (write_record k b r).1 rs).capacity_ = b.capacity_
      rw [h4, hcap]

/-- Draining a buffer holding the queue q with q.length read transactions
returns exactly the records of q, in order. -/
theorem read_all_spec (k : Nat) (q : List (Nat × List Nat))
    (b : transactional_ring_buffer) (hinv : Inv k b q) :
    read_all k b q.length = q.map some := by
  induction q generalizing b with
  | nil => rfl
  | cons r q ih =>
    obtain ⟨h1, h2, -⟩ := read_record_step k b r q hinv
    show (read_record k b).2 :: read_all k (read_record k b).1 q.length =
      some r :: q.map some
    rw [h1, ih _ h2]

/-- A fresh owned-mode reserve establishes the invariant with an empty
queue and a capacity covering the request. -/
theorem reserve_fresh_inv (k n : Nat) (hn : n ≤ 2 ^ 31)
    (hk : min_capacity k ≤ 2 ^ 31) :
    Inv k (({} : transactional_ring_buffer).reserve k n).1 [] ∧
    max n (min_capacity k) ≤
      (({} : transactional_ring_buffer).reserve k n).1.capacity_ := by
  have hmax : max (if n < min_capacity k then min_capacity k else n)
      (min_capacity k) = max n (min_capacity k) := by
    by_cases h : n < min_capacity k
    · rw [if_pos h]
      omega
    · rw [if_neg h]
  obtain ⟨m, hm31, hru, hge⟩ :=
    round_up_spec k (if n < min_capacity k then min_capacity k else n)
      (by rw [hmax]; exact max_le hn hk)
  rw [hmax] at hge
  have hbf : (({} : transactional_ring_buffer).reserve k n).1 =
      ({} : transactional_ring_buffer).set_buffer (some fun _ => 0) (2 ^ m) := by
    unfold transactional_ring_buffer.reserve
    rw [if_neg (by decide)]
    dsimp only
    rw [if_neg (by rintro ⟨hv, -⟩; exact absurd hv (by decide))]
    dsimp only
    rw [hru]
  rw [hbf]
  constructor
  · refine Inv.mk rfl rfl rfl rfl ⟨m, hm31, rfl⟩ ?_ ?_ ?_
      (by show (0 : Nat) = (0 + 0) % 2 ^ m; simp) rfl
      (Nat.zero_le _) ?_ rfl
    · show u32sub (2 ^ m) 1 = 2 ^ m - 1
      exact u32sub_eq (2 ^ m) 1
        (by rw [U32_eq_pow]; exact Nat.pow_lt_pow_right (by omega) (by omega))
        (Nat.one_le_two_pow)
    · show header_size k ≤ 2 ^ m
      exact le_trans (le_max_right n (min_capacity k)) hge
    · show 0 < 2 ^ m
      exact Nat.pos_pow_of_pos m (by omega)
    · exact fun x hx => nomatch hx
  · show max n (min_capacity k) ≤ 2 ^ m
    exact hge

/-- C1: round-trip.  Starting from a freshly reserved buffer, for any
sequence of records (timestamp, payload) whose serialized forms (headers
included) fit within the installed capacity, committing them in order
through write transactions and then draining the buffer with as many read
transactions yields exactly the same timestamps and payload bytes in the
same order. -/
theorem c1_round_trip (k n : Nat) (rs : List (Nat × List Nat))
    (hn : n ≤ 2 ^ 31) (hk : min_capacity k ≤ 2 ^ 31)
    (hfit : total_size k rs ≤
      (({} : transactional_ring_buffer).reserve k n).1.capacity_)
    (hts : ∀ r ∈ rs, r.1 < 256 ^ k) :
    read_all k (write_all k (({} : transactional_ring_buffer).reserve k n).1 rs)
      rs.length = rs.map some := by
  obtain ⟨hinv0, -⟩ := reserve_fresh_inv k n hn hk
  obtain ⟨hinv1, -⟩ := write_all_inv k rs
    (({} : transactional_ring_buffer).reserve k n).1 [] hinv0
    (by rw [total_size_nil, Nat.zero_add]; exact hfit) hts
  rw [List.nil_append] at hinv1
  exact read_all_spec k rs _ hinv1

/-- Witness for C1: with f32 timestamps and capacity request 32, the two
records (7, [1, 2]) and (300, [5]) are written and read back verbatim. -/
theorem c1_round_trip_witness :
    read_all 4 (write_all 4 (({} : transactional_ring_buffer).reserve 4 32).1
      [(7, [1, 2]), (300, [5])]) 2 =
      [some (7, [1, 2]), some (300, [5])] :=
  c1_round_trip 4 32 [(7, [1, 2]), (300, [5])] (by decide) (by decide)
    (by decide) (by decide)

end TRB
